import Mathlib

/-!
Verification of the IPMapper data pipeline and lookup engine.

This file gives a shallow embedding, in Lean 4, of the core of the
`ipmapper` Python package:

* `RadixNode.insertBits` / `RadixNode.lookupBits` embed
  `RadixNode.insert` / `RadixNode.lookup` from `src/ipmapper/lookup.py`
  (bits are `Bool`s, `false` = the character `0`, `true` = the character
  `1`; the `children` dictionary, which can only ever hold the keys `0`
  and `1`, is embedded as the two optional fields `c0`, `c1`).
* The parser functions from `src/ipmapper/parser.py`
  (`_ipv4_to_cidrs`, `_parse_date`, `_parse_line`, `deduplicate_entries`)
  are embedded over `List Char` (Python strings are sequences of
  characters; all inputs of interest are ASCII).
* The aggregator from `src/ipmapper/aggregator.py` and the CSV writer
  from `src/ipmapper/output_writer.py`.

Machine integers do not appear: Python integers are unbounded, IPv4 and
IPv6 addresses are modelled as `Nat` with explicit bounds (`< 2 ^ 32`,
`< 2 ^ 128`) where the code enforces them.
-/

/-! ## Prefixes as aligned blocks of addresses

A CIDR prefix is modelled by the integer value of its network address,
its prefix length and the bit width of its family (32 for
`IPv4Network`, 128 for `IPv6Network`).  `Pfx.valid` is the invariant
that `ipaddress`'s strict network constructor enforces: the length is at
most the width, the block lies inside the address space, and all host
bits are zero. -/

structure Pfx where
  w : Nat
  addr : Nat
  len : Nat
deriving DecidableEq, Repr

def Pfx.size (p : Pfx) : Nat := 2 ^ (p.w - p.len)

def Pfx.addrs (p : Pfx) : Finset Nat := Finset.Ico p.addr (p.addr + p.size)

def Pfx.valid (p : Pfx) : Prop :=
  p.len ≤ p.w ∧ p.addr + p.size ≤ 2 ^ p.w ∧ p.addr % p.size = 0

instance (p : Pfx) : Decidable p.valid := by
  unfold Pfx.valid; infer_instance

/-- Union of the address sets of a list of prefixes. -/
def listUnion (l : List Pfx) : Finset Nat := l.foldr (fun b acc => b.addrs ∪ acc) ∅

/-- The parent block of a prefix: one bit shorter, network address
rounded down to the parent's alignment. -/
def Pfx.parentOf (p : Pfx) : Pfx :=
  ⟨p.w, p.addr - p.addr % (2 * p.size), p.len - 1⟩

/-- The sibling block: the other half of the parent. -/
def Pfx.sibOf (p : Pfx) : Pfx :=
  if p.addr % (2 * p.size) = 0 then ⟨p.w, p.addr + p.size, p.len⟩
  else ⟨p.w, p.addr - p.size, p.len⟩

/-- Two distinct blocks of equal positive length that share a parent. -/
def Sib (p q : Pfx) : Prop :=
  p.w = q.w ∧ p.len = q.len ∧ 0 < p.len ∧ p.parentOf = q.parentOf ∧ p ≠ q

instance (p q : Pfx) : Decidable (Sib p q) := by
  unfold Sib; infer_instance

/-- No two members of the list form a sibling pair. -/
def NoSib (l : List Pfx) : Prop := ∀ p ∈ l, ∀ q ∈ l, ¬ Sib p q

/-! ## The radix trie of `lookup.py` -/

inductive RadixNode : Type where
  | node (c0 c1 : Option RadixNode) (data : Option String) (isTerminal : Bool)

/-- A fresh node, as built by `RadixNode.__init__`. -/
def RadixNode.empty : RadixNode := .node none none none false

/-- `RadixNode.insert` from `lookup.py`: walk/create the child for each
bit of the prefix; at the end overwrite `data` and set `is_terminal`. -/
def RadixNode.insertBits : RadixNode → List Bool → String → RadixNode
  | .node c0 c1 _ _, [], cc => .node c0 c1 (some cc) true
  | .node c0 c1 d term, false :: p, cc =>
      .node (some ((c0.getD RadixNode.empty).insertBits p cc)) c1 d term
  | .node c0 c1 d term, true :: p, cc =>
      .node c0 (some ((c1.getD RadixNode.empty).insertBits p cc)) d term

/-- `RadixNode.lookup` from `lookup.py`: remember `data` of terminal
nodes while descending, stop when the bits run out, the node has no
children, or the wanted child is absent, and let a non-`None` child
result override the shallower best match. -/
def RadixNode.lookupBits : RadixNode → List Bool → Option String
  | .node _ _ d term, [] => if term then d else none
  | .node c0 c1 d term, b :: rest =>
    if c0.isNone && c1.isNone then (if term then d else none)
    else
      match (if b then c1 else c0) with
      | some child =>
        match child.lookupBits rest with
        | some r => some r
        | none => if term then d else none
      | none => if term then d else none

/-- Build a trie by inserting every `(bits, country_code)` pair in
order, as the loops in `IPLookup._load_ipv4_data` / `_load_ipv6_data`
do. -/
def buildTrie (pairs : List (List Bool × String)) : RadixNode :=
  pairs.foldl (fun t pc => t.insertBits pc.1 pc.2) RadixNode.empty

/-- `p` is an initial segment of `ip`: the address `ip` lies inside the
prefix whose bit string is `p`. -/
def BitsMatch (p ip : List Bool) : Prop := ip.take p.length = p

instance (p ip : List Bool) : Decidable (BitsMatch p ip) :=
  inferInstanceAs (Decidable (ip.take p.length = p))

/-- Depth-annotated variant of `RadixNode.lookupBits`: the same
traversal, but the result also carries the depth of the terminal node
that produced it.  (A specification device; the code computes only the
value.) -/
def RadixNode.lookupAnnot : RadixNode → List Bool → Option (Nat × String)
  | .node _ _ d term, [] => if term then d.map ((0, ·)) else none
  | .node c0 c1 d term, b :: rest =>
    if c0.isNone && c1.isNone then (if term then d.map ((0, ·)) else none)
    else
      match (if b then c1 else c0) with
      | some child =>
        match child.lookupAnnot rest with
        | some kr => some (kr.1 + 1, kr.2)
        | none => if term then d.map ((0, ·)) else none
      | none => if term then d.map ((0, ·)) else none

theorem RadixNode.lookupBits_eq_annot (t : RadixNode) (bits : List Bool) :
    t.lookupBits bits = (t.lookupAnnot bits).map Prod.snd := by
  induction bits generalizing t with
  | nil =>
    obtain ⟨c0, c1, d, term⟩ := t
    cases term <;> cases d <;> simp [lookupBits, lookupAnnot]
  | cons b rest ih =>
    obtain ⟨c0, c1, d, term⟩ := t
    simp only [lookupBits, lookupAnnot]
    by_cases hnone : (c0.isNone && c1.isNone) = true
    · rw [if_pos hnone, if_pos hnone]
      cases term <;> cases d <;> simp
    · rw [if_neg hnone, if_neg hnone]
      cases hchild : (if b then c1 else c0) with
      | none => cases term <;> cases d <;> simp
      | some child =>
        dsimp only
        rw [ih child]
        cases hc : child.lookupAnnot rest with
        | none => cases term <;> cases d <;> simp
        | some kr => simp

theorem RadixNode.lookupAnnot_empty (bits : List Bool) :
    RadixNode.empty.lookupAnnot bits = none := by
  cases bits <;> simp [RadixNode.empty, lookupAnnot]

theorem RadixNode.lookupBits_empty (bits : List Bool) :
    RadixNode.empty.lookupBits bits = none := by
  rw [lookupBits_eq_annot, lookupAnnot_empty]; rfl

theorem bitsMatch_nil (ip : List Bool) : BitsMatch [] ip := by
  simp [BitsMatch]

theorem bitsMatch_cons {b i : Bool} {p ip : List Bool} :
    BitsMatch (b :: p) (i :: ip) ↔ i = b ∧ BitsMatch p ip := by
  simp only [BitsMatch, List.length_cons, List.take_succ_cons, List.cons.injEq]

theorem bitsMatch_cons_nil (b : Bool) (p : List Bool) :
    ¬ BitsMatch (b :: p) [] := by
  simp [BitsMatch]

/-- Inserting a prefix leaves the annotated lookup of every address
outside the prefix unchanged. -/
theorem RadixNode.lookupAnnot_insertBits_outside (p : List Bool) (t : RadixNode)
    (ip : List Bool) (cc : String) (h : ¬ BitsMatch p ip) :
    (t.insertBits p cc).lookupAnnot ip = t.lookupAnnot ip := by
  induction p generalizing t ip with
  | nil => exact absurd (bitsMatch_nil ip) h
  | cons b p' ih =>
    obtain ⟨c0, c1, d, term⟩ := t
    cases ip with
    | nil =>
      cases b <;> simp [insertBits, lookupAnnot]
    | cons i ip' =>
      rw [bitsMatch_cons] at h
      push_neg at h
      by_cases hib : i = b
      · subst hib
        have hp' : ¬ BitsMatch p' ip' := h rfl
        cases i <;> cases hc0 : c0 <;> cases hc1 : c1 <;>
          simp [insertBits, lookupAnnot, ih _ _ hp', lookupAnnot_empty]
      · cases b <;> cases i <;> first
          | exact absurd rfl hib
          | (cases hc0 : c0 <;> cases hc1 : c1 <;>
              simp [insertBits, lookupAnnot])

theorem RadixNode.lookupBits_insertBits_outside (p : List Bool) (t : RadixNode)
    (ip : List Bool) (cc : String) (h : ¬ BitsMatch p ip) :
    (t.insertBits p cc).lookupBits ip = t.lookupBits ip := by
  rw [lookupBits_eq_annot, lookupBits_eq_annot,
    lookupAnnot_insertBits_outside p t ip cc h]

/-! ## Decomposition of a lookup along a stored prefix

To reason about `buildTrie` we split the annotated lookup of
`p ++ rest` into the part that happens strictly below the node reached
by `p` (`tailAnnot`) and the best terminal seen on the way down
(`shallowAnnot`). -/

def RadixNode.childOf : RadixNode → Bool → Option RadixNode
  | .node c0 c1 _ _, b => if b then c1 else c0

def RadixNode.bestAnnot : RadixNode → Option (Nat × String)
  | .node _ _ d term => if term then d.map ((0, ·)) else none

def RadixNode.subAt : RadixNode → List Bool → Option RadixNode
  | t, [] => some t
  | t, b :: p =>
    match t.childOf b with
    | some ch => ch.subAt p
    | none => none

/-- The child-descent part of `lookupAnnot`, ignoring the node's own
terminal payload. -/
def RadixNode.deepAnnot : RadixNode → List Bool → Option (Nat × String)
  | _, [] => none
  | .node c0 c1 _ _, b :: rest =>
    if c0.isNone && c1.isNone then none
    else
      match (if b then c1 else c0) with
      | some child =>
        match child.lookupAnnot rest with
        | some kr => some (kr.1 + 1, kr.2)
        | none => none
      | none => none

/-- The annotated result contributed by the node reached by `p`, taken
relative to that node. -/
def RadixNode.tailAnnot (t : RadixNode) (p rest : List Bool) : Option (Nat × String) :=
  match t.subAt p with
  | some n => n.deepAnnot rest
  | none => none

/-- The deepest terminal payload at depth at most `p.length` on the
descent along `p`. -/
def RadixNode.shallowAnnot : RadixNode → List Bool → Option (Nat × String)
  | t, [] => t.bestAnnot
  | t, b :: p =>
    match t.childOf b with
    | some ch =>
      match ch.shallowAnnot p with
      | some kr => some (kr.1 + 1, kr.2)
      | none => t.bestAnnot
    | none => t.bestAnnot

theorem RadixNode.lookupAnnot_or (t : RadixNode) (bits : List Bool) :
    t.lookupAnnot bits = (t.deepAnnot bits).or t.bestAnnot := by
  obtain ⟨c0, c1, d, term⟩ := t
  cases bits with
  | nil => simp [lookupAnnot, deepAnnot, bestAnnot]
  | cons b rest =>
    simp only [lookupAnnot, deepAnnot, bestAnnot]
    by_cases hnone : (c0.isNone && c1.isNone) = true
    · simp [hnone]
    · rw [if_neg hnone, if_neg hnone]
      cases hchild : (if b then c1 else c0) with
      | none => simp
      | some child =>
        dsimp only
        cases hc : child.lookupAnnot rest with
        | none => simp
        | some kr => simp

theorem RadixNode.bestAnnot_zero {t : RadixNode} {kr : Nat × String}
    (h : t.bestAnnot = some kr) : kr.1 = 0 := by
  obtain ⟨c0, c1, d, term⟩ := t
  simp only [bestAnnot] at h
  cases term with
  | false => simp at h
  | true =>
    cases d with
    | none => simp at h
    | some v =>
      simp only [Option.map_some'] at h
      cases h
      rfl

theorem RadixNode.deepAnnot_pos {t : RadixNode} {bits : List Bool} {kr : Nat × String}
    (h : t.deepAnnot bits = some kr) : 1 ≤ kr.1 := by
  obtain ⟨c0, c1, d, term⟩ := t
  cases bits with
  | nil => simp [deepAnnot] at h
  | cons b rest =>
    simp only [deepAnnot] at h
    by_cases hnone : (c0.isNone && c1.isNone) = true
    · simp [hnone] at h
    · rw [if_neg hnone] at h
      cases hchild : (if b then c1 else c0) with
      | none => rw [hchild] at h; simp at h
      | some child =>
        rw [hchild] at h
        dsimp only at h
        cases hc : child.lookupAnnot rest with
        | none => rw [hc] at h; simp at h
        | some kr' =>
          rw [hc] at h
          simp only [Option.some.injEq] at h
          cases h
          simp

theorem RadixNode.shallowAnnot_le {t : RadixNode} {p : List Bool} {kr : Nat × String}
    (h : t.shallowAnnot p = some kr) : kr.1 ≤ p.length := by
  induction p generalizing t kr with
  | nil =>
    simp only [shallowAnnot] at h
    rw [RadixNode.bestAnnot_zero h]
    simp
  | cons b p' ih =>
    simp only [shallowAnnot] at h
    cases hchild : t.childOf b with
    | none =>
      rw [hchild] at h
      rw [RadixNode.bestAnnot_zero h]
      simp
    | some ch =>
      rw [hchild] at h
      dsimp only at h
      cases hc : ch.shallowAnnot p' with
      | none =>
        rw [hc] at h
        rw [RadixNode.bestAnnot_zero h]
        simp
      | some kr' =>
        rw [hc] at h
        simp only [Option.some.injEq] at h
        have hk := ih hc
        cases h
        simp only [List.length_cons]
        omega

theorem RadixNode.tailAnnot_cons (t : RadixNode) (b : Bool) (p rest : List Bool) :
    t.tailAnnot (b :: p) rest =
      match t.childOf b with
      | some ch => ch.tailAnnot p rest
      | none => none := by
  simp only [tailAnnot, subAt]
  cases t.childOf b <;> rfl

theorem RadixNode.deepAnnot_node (c0 c1 : Option RadixNode) (d d' : Option String)
    (t t' : Bool) (bits : List Bool) :
    (RadixNode.node c0 c1 d t).deepAnnot bits = (RadixNode.node c0 c1 d' t').deepAnnot bits := by
  cases bits <;> rfl

theorem RadixNode.tailAnnot_empty (p rest : List Bool) :
    RadixNode.empty.tailAnnot p rest = none := by
  cases p with
  | nil =>
    simp only [tailAnnot, subAt]
    cases rest <;> simp [RadixNode.empty, deepAnnot]
  | cons b p' =>
    simp only [tailAnnot, subAt, RadixNode.empty, childOf]
    cases b <;> rfl

/-- Splitting a lookup at depth `p.length`: the answer is the deep part
below the node reached by `p` if that produces something, and the best
terminal along `p` otherwise. -/
theorem RadixNode.lookupAnnot_decompose (p : List Bool) (t : RadixNode) (rest : List Bool) :
    t.lookupAnnot (p ++ rest) =
      match t.tailAnnot p rest with
      | some kr => some (p.length + kr.1, kr.2)
      | none => t.shallowAnnot p := by
  induction p generalizing t with
  | nil =>
    simp only [List.nil_append, tailAnnot, subAt, shallowAnnot]
    rw [lookupAnnot_or]
    cases hd : t.deepAnnot rest with
    | some kr => simp [Option.or]
    | none => simp [Option.or]
  | cons b p' ih =>
    obtain ⟨c0, c1, d, term⟩ := t
    rw [List.cons_append]
    rw [RadixNode.tailAnnot_cons]
    simp only [lookupAnnot, shallowAnnot]
    by_cases hnone : (c0.isNone && c1.isNone) = true
    · have hc0 : c0 = none := by
        cases c0 <;> simp_all
      have hc1 : c1 = none := by
        cases c1 <;> simp_all
      subst hc0; subst hc1
      have hch : (RadixNode.node none none d term).childOf b = none := by
        cases b <;> rfl
      rw [hch]
      simp [bestAnnot]
    · rw [if_neg hnone]
      have hch : (RadixNode.node c0 c1 d term).childOf b = (if b then c1 else c0) := rfl
      rw [hch]
      cases hchild : (if b then c1 else c0) with
      | none => simp [bestAnnot]
      | some ch =>
        dsimp only
        rw [ih ch]
        cases ht : ch.tailAnnot p' rest with
        | some kr =>
          dsimp only
          have harith : p'.length + kr.1 + 1 = (b :: p').length + kr.1 := by
            simp only [List.length_cons]; omega
          rw [harith]
        | none =>
          dsimp only
          cases hs : ch.shallowAnnot p' with
          | some kr => simp [bestAnnot]
          | none => simp [bestAnnot]

/-- Looking up any address inside an inserted prefix: the deep part of
the original trie wins if present, and otherwise the answer is the
freshly inserted code at depth `p.length`. -/
theorem RadixNode.lookupAnnot_insertBits_hit (p : List Bool) (t : RadixNode)
    (rest : List Bool) (cc : String) :
    (t.insertBits p cc).lookupAnnot (p ++ rest) =
      match t.tailAnnot p rest with
      | some kr => some (p.length + kr.1, kr.2)
      | none => some (p.length, cc) := by
  induction p generalizing t with
  | nil =>
    obtain ⟨c0, c1, d, term⟩ := t
    simp only [insertBits, List.nil_append, tailAnnot, subAt]
    rw [lookupAnnot_or]
    rw [RadixNode.deepAnnot_node c0 c1 (some cc) d true term]
    cases hd : (RadixNode.node c0 c1 d term).deepAnnot rest with
    | some kr => simp [Option.or, bestAnnot]
    | none => simp [Option.or, bestAnnot]
  | cons b p' ih =>
    obtain ⟨c0, c1, d, term⟩ := t
    rw [RadixNode.tailAnnot_cons]
    have hch : (RadixNode.node c0 c1 d term).childOf b = (if b then c1 else c0) := rfl
    rw [hch]
    cases b with
    | false =>
      simp only [insertBits, List.cons_append, lookupAnnot, Option.isNone_some,
        Bool.false_and, Bool.false_eq_true, if_false]
      rw [List.append_eq]
      rw [ih]
      cases hc0 : c0 with
      | some ch =>
        simp only [Option.getD_some]
        cases ht : ch.tailAnnot p' rest with
        | some kr =>
          dsimp only
          have harith : p'.length + kr.1 + 1 = (false :: p').length + kr.1 := by
            simp only [List.length_cons]; omega
          rw [harith]
        | none => simp
      | none =>
        simp only [Option.getD_none, RadixNode.tailAnnot_empty]
        simp
    | true =>
      simp only [insertBits, List.cons_append, lookupAnnot, Option.isNone_some,
        Bool.and_false, Bool.false_eq_true, if_false, if_true]
      rw [List.append_eq]
      rw [ih]
      cases hc1 : c1 with
      | some ch =>
        simp only [Option.getD_some]
        cases ht : ch.tailAnnot p' rest with
        | some kr =>
          dsimp only
          have harith : p'.length + kr.1 + 1 = (true :: p').length + kr.1 := by
            simp only [List.length_cons]; omega
          rw [harith]
        | none => simp
      | none =>
        simp only [Option.getD_none, RadixNode.tailAnnot_empty]
        simp

/-! ## Longest prefix match as a fold over the stored pairs -/

/-- One step of a reference longest-prefix-match scan: keep the pair
with the longest matching prefix seen so far, later pairs winning ties
(mirroring the overwrite in `RadixNode.insert`). -/
def lpmAcc (ip : List Bool) (acc : Option (List Bool × String))
    (pc : List Bool × String) : Option (List Bool × String) :=
  if BitsMatch pc.1 ip then
    match acc with
    | none => some pc
    | some qd => if qd.1.length ≤ pc.1.length then some pc else acc
  else acc

def lpmFold (pairs : List (List Bool × String)) (ip : List Bool) :
    Option (List Bool × String) :=
  pairs.foldl (lpmAcc ip) none

theorem bitsMatch_append_drop {p ip : List Bool} (h : BitsMatch p ip) :
    p ++ ip.drop p.length = ip := by
  unfold BitsMatch at h
  conv_rhs => rw [← List.take_append_drop p.length ip]
  rw [h]

/-- The key invariant: looking up `ip` in the trie built from `pairs`
returns exactly the value and prefix length that the reference
longest-prefix-match scan computes. -/
theorem buildTrie_lookupAnnot (pairs : List (List Bool × String)) (ip : List Bool) :
    (buildTrie pairs).lookupAnnot ip =
      (lpmFold pairs ip).map (fun pc => (pc.1.length, pc.2)) := by
  induction pairs using List.reverseRecOn with
  | nil => simp [buildTrie, lpmFold, RadixNode.lookupAnnot_empty]
  | append_singleton ps pc ih =>
    have hbuild : buildTrie (ps ++ [pc]) = (buildTrie ps).insertBits pc.1 pc.2 := by
      simp [buildTrie, List.foldl_append]
    have hfold : lpmFold (ps ++ [pc]) ip = lpmAcc ip (lpmFold ps ip) pc := by
      simp [lpmFold, List.foldl_append]
    rw [hbuild, hfold]
    by_cases hm : BitsMatch pc.1 ip
    · -- address inside the inserted prefix
      have hip : pc.1 ++ ip.drop pc.1.length = ip := bitsMatch_append_drop hm
      have hit := RadixNode.lookupAnnot_insertBits_hit pc.1 (buildTrie ps)
        (ip.drop pc.1.length) pc.2
      rw [hip] at hit
      rw [hit]
      have hdec := RadixNode.lookupAnnot_decompose pc.1 (buildTrie ps) (ip.drop pc.1.length)
      rw [hip] at hdec
      rw [hdec] at ih
      simp only [lpmAcc, if_pos hm]
      cases ht : (buildTrie ps).tailAnnot pc.1 (ip.drop pc.1.length) with
      | some kr =>
        rw [ht] at ih
        -- the old answer is deeper than the inserted prefix, so it survives
        have hdeep : 1 ≤ kr.1 := by
          unfold RadixNode.tailAnnot at ht
          cases hs : (buildTrie ps).subAt pc.1 with
          | none => rw [hs] at ht; simp at ht
          | some n =>
            rw [hs] at ht
            exact RadixNode.deepAnnot_pos ht
        cases hacc : lpmFold ps ip with
        | none => rw [hacc] at ih; simp at ih
        | some qd =>
          rw [hacc] at ih
          simp only [Option.map_some', Option.some.injEq] at ih
          have hlen : qd.1.length = pc.1.length + kr.1 := by
            have h1 := congrArg Prod.fst ih
            simpa using h1.symm
          have hcond : ¬ qd.1.length ≤ pc.1.length := by omega
          dsimp only
          rw [if_neg hcond]
          simp only [Option.map_some']
          exact congrArg some ih
      | none =>
        rw [ht] at ih
        cases hacc : lpmFold ps ip with
        | none => simp
        | some qd =>
          rw [hacc] at ih
          simp only [Option.map_some'] at ih
          have hsh : qd.1.length ≤ pc.1.length := by
            simpa using RadixNode.shallowAnnot_le ih
          dsimp only
          rw [if_pos hsh]
          simp
    · -- address outside the inserted prefix: nothing changes
      rw [RadixNode.lookupAnnot_insertBits_outside pc.1 (buildTrie ps) ip pc.2 hm]
      rw [ih]
      simp [lpmAcc, hm]

theorem lpmAcc_eq_none {ip : List Bool} {acc : Option (List Bool × String)}
    {pc : List Bool × String} :
    lpmAcc ip acc pc = none ↔ acc = none ∧ ¬ BitsMatch pc.1 ip := by
  unfold lpmAcc
  by_cases hm : BitsMatch pc.1 ip
  · rw [if_pos hm]
    cases acc with
    | none => simp [hm]
    | some qd =>
      by_cases hq : qd.1.length ≤ pc.1.length <;> simp [hq, hm]
  · rw [if_neg hm]
    simp [hm]

theorem lpmFold_go_eq_none {ip : List Bool} (ps : List (List Bool × String))
    (acc : Option (List Bool × String)) :
    ps.foldl (lpmAcc ip) acc = none ↔
      acc = none ∧ ∀ pc ∈ ps, ¬ BitsMatch pc.1 ip := by
  induction ps generalizing acc with
  | nil => simp
  | cons q ps ih =>
    rw [List.foldl_cons, ih]
    rw [lpmAcc_eq_none]
    constructor
    · rintro ⟨⟨h1, h2⟩, h3⟩
      exact ⟨h1, by
        intro pc hpc
        rcases List.mem_cons.mp hpc with hpc | hpc
        · simpa [hpc] using h2
        · exact h3 pc hpc⟩
    · rintro ⟨h1, h2⟩
      exact ⟨⟨h1, h2 q (by simp)⟩, fun pc hpc => h2 pc (by simp [hpc])⟩

theorem lpmFold_eq_none {ip : List Bool} {ps : List (List Bool × String)} :
    lpmFold ps ip = none ↔ ∀ pc ∈ ps, ¬ BitsMatch pc.1 ip := by
  unfold lpmFold
  rw [lpmFold_go_eq_none]
  simp

theorem lpmFold_go_mem {ip : List Bool} (ps : List (List Bool × String))
    (acc : Option (List Bool × String)) {qd : List Bool × String}
    (h : ps.foldl (lpmAcc ip) acc = some qd) :
    (qd ∈ ps ∧ BitsMatch qd.1 ip) ∨ acc = some qd := by
  induction ps generalizing acc with
  | nil => right; simpa using h
  | cons q ps ih =>
    rw [List.foldl_cons] at h
    rcases ih (lpmAcc ip acc q) h with ⟨h1, h2⟩ | h1
    · exact Or.inl ⟨by simp [h1], h2⟩
    · unfold lpmAcc at h1
      by_cases hm : BitsMatch q.1 ip
      · rw [if_pos hm] at h1
        cases acc with
        | none =>
          left
          simp only [Option.some.injEq] at h1
          exact ⟨by simp [← h1], by rw [← h1]; exact hm⟩
        | some qd' =>
          dsimp only at h1
          by_cases hq : qd'.1.length ≤ q.1.length
          · rw [if_pos hq] at h1
            simp only [Option.some.injEq] at h1
            exact Or.inl ⟨by simp [← h1], by rw [← h1]; exact hm⟩
          · rw [if_neg hq] at h1
            exact Or.inr h1
      · rw [if_neg hm] at h1
        exact Or.inr h1

/-- Starting the scan from a present accumulator always yields an
answer at least as long. -/
theorem lpmFold_go_some {ip : List Bool} (ps : List (List Bool × String))
    (qd' : List Bool × String) :
    ∃ qd, ps.foldl (lpmAcc ip) (some qd') = some qd ∧ qd'.1.length ≤ qd.1.length := by
  induction ps generalizing qd' with
  | nil => exact ⟨qd', by simp⟩
  | cons q ps ih =>
    rw [List.foldl_cons]
    unfold lpmAcc
    by_cases hm : BitsMatch q.1 ip
    · rw [if_pos hm]
      dsimp only
      by_cases hq : qd'.1.length ≤ q.1.length
      · rw [if_pos hq]
        obtain ⟨qd, h1, h2⟩ := ih q
        exact ⟨qd, h1, by omega⟩
      · rw [if_neg hq]
        exact ih qd'
    · rw [if_neg hm]
      exact ih qd'

theorem lpmFold_go_max {ip : List Bool} (ps : List (List Bool × String))
    {r : List Bool × String} (hr : r ∈ ps) (hm : BitsMatch r.1 ip)
    (acc : Option (List Bool × String)) :
    ∃ qd, ps.foldl (lpmAcc ip) acc = some qd ∧ r.1.length ≤ qd.1.length := by
  induction ps generalizing acc with
  | nil => cases hr
  | cons q ps ih =>
    rw [List.foldl_cons]
    rcases List.mem_cons.mp hr with hr | hr
    · subst hr
      -- after this step the accumulator holds a match at least as long as r
      have hstep : ∃ qd', lpmAcc ip acc r = some qd' ∧ r.1.length ≤ qd'.1.length := by
        unfold lpmAcc
        rw [if_pos hm]
        cases acc with
        | none => exact ⟨r, rfl, le_refl _⟩
        | some qd' =>
          dsimp only
          by_cases hq : qd'.1.length ≤ r.1.length
          · rw [if_pos hq]
            exact ⟨r, rfl, le_refl _⟩
          · rw [if_neg hq]
            exact ⟨qd', rfl, by omega⟩
      obtain ⟨qd', h1, h2⟩ := hstep
      rw [h1]
      obtain ⟨qd, h3, h4⟩ := lpmFold_go_some ps qd'
      exact ⟨qd, h3, by omega⟩
    · exact ih hr _

theorem bitsMatch_eq_of_length {a b ip : List Bool} (ha : BitsMatch a ip)
    (hb : BitsMatch b ip) (hl : a.length = b.length) : a = b := by
  unfold BitsMatch at ha hb
  rw [← ha, ← hb, hl]

/-- C1.  For every radix trie built from a list of
`(prefix bits, country code)` pairs in which equal prefixes carry equal
codes, and every address, `RadixNode.lookup` returns the code of the
longest stored prefix containing the address, and `None` exactly when
no stored prefix contains it. -/
theorem trie_lookup_longest_match (pairs : List (List Bool × String)) (ip : List Bool)
    (hfun : ∀ pc ∈ pairs, ∀ qc ∈ pairs, pc.1 = qc.1 → pc.2 = qc.2) :
    ((buildTrie pairs).lookupBits ip = none ↔ ∀ pc ∈ pairs, ¬ BitsMatch pc.1 ip) ∧
    (∀ cc : String, (buildTrie pairs).lookupBits ip = some cc ↔
      ∃ p, (p, cc) ∈ pairs ∧ BitsMatch p ip ∧
        ∀ qc ∈ pairs, BitsMatch qc.1 ip → qc.1.length ≤ p.length) := by
  have hkey : (buildTrie pairs).lookupBits ip =
      (lpmFold pairs ip).map (fun pc => pc.2) := by
    rw [RadixNode.lookupBits_eq_annot, buildTrie_lookupAnnot]
    cases lpmFold pairs ip <;> simp
  constructor
  · rw [hkey]
    cases hacc : lpmFold pairs ip with
    | none => simpa using lpmFold_eq_none.1 hacc
    | some qd =>
      simp only [Option.map_some']
      constructor
      · intro h; cases h
      · intro hno
        rcases lpmFold_go_mem pairs none hacc with ⟨h1, h2⟩ | h1
        · exact absurd h2 (hno qd h1)
        · cases h1
  · intro cc
    rw [hkey]
    constructor
    · intro h
      cases hacc : lpmFold pairs ip with
      | none => rw [hacc] at h; cases h
      | some qd =>
        rw [hacc] at h
        simp only [Option.map_some', Option.some.injEq] at h
        rcases lpmFold_go_mem pairs none hacc with ⟨h1, h2⟩ | h1
        · refine ⟨qd.1, by rw [← h, Prod.mk.eta]; exact h1, h2, ?_⟩
          intro qc hqc hqm
          obtain ⟨qd'', h3, h4⟩ := lpmFold_go_max pairs hqc hqm none
          rw [lpmFold] at hacc
          rw [hacc] at h3
          cases h3
          exact h4
        · cases h1
    · rintro ⟨p, hp, hpm, hmax⟩
      obtain ⟨qd, h1, h2⟩ := lpmFold_go_max pairs hp hpm none
      have hacc : lpmFold pairs ip = some qd := h1
      rcases lpmFold_go_mem pairs none hacc with ⟨h3, h4⟩ | h3
      · have hle : qd.1.length ≤ p.length := hmax qd h3 h4
        have h2' : p.length ≤ qd.1.length := h2
        have hlen : p.length = qd.1.length := by omega
        have heq : p = qd.1 := bitsMatch_eq_of_length hpm h4 hlen
        have : (p, cc).2 = qd.2 := hfun (p, cc) hp qd h3 heq
        rw [hacc]
        simp [← this]
      · cases h3

/-- Witness for C1 at a concrete dataset: two nested prefixes, the
longer one wins for an address inside both. -/
theorem trie_lookup_longest_match_witness :
    (∀ pc ∈ [([true], "AA"), ([true, false], "BB")],
      ∀ qc ∈ [([true], "AA"), ([true, false], "BB")], pc.1 = qc.1 → pc.2 = qc.2) ∧
    ((buildTrie [([true], "AA"), ([true, false], "BB")]).lookupBits
        [true, false, true] = some "BB" ↔
      ∃ p, (p, "BB") ∈ [([true], "AA"), ([true, false], "BB")] ∧
        BitsMatch p [true, false, true] ∧
        ∀ qc ∈ [([true], "AA"), ([true, false], "BB")],
          BitsMatch qc.1 [true, false, true] → qc.1.length ≤ p.length) :=
  ⟨by decide, (trie_lookup_longest_match
      [([true], "AA"), ([true, false], "BB")] [true, false, true] (by decide)).2 "BB"⟩

/-- C8.  Inserting a prefix into a trie does not change the lookup
result of any address outside that prefix. -/
theorem insert_preserves_outside_lookup (t : RadixNode) (p ip : List Bool) (cc : String)
    (h : ¬ BitsMatch p ip) :
    (t.insertBits p cc).lookupBits ip = t.lookupBits ip :=
  RadixNode.lookupBits_insertBits_outside p t ip cc h

/-- Witness for C8 at a concrete trie and address. -/
theorem insert_preserves_outside_lookup_witness :
    ¬ BitsMatch [false, true] [true, true, false] ∧
    ((buildTrie [([true], "AA")]).insertBits [false, true] "BB").lookupBits
        [true, true, false] =
      (buildTrie [([true], "AA")]).lookupBits [true, true, false] :=
  ⟨by decide, insert_preserves_outside_lookup _ _ _ _ (by decide)⟩

/-! ## Geometry of aligned CIDR blocks

Aligned power-of-two blocks form a laminar family: two blocks of the
same family either nest or are disjoint.  A family of pairwise disjoint
blocks containing no sibling pair is exactly the set of maximal blocks
of its union; this gives both minimality and uniqueness of CIDR
decompositions, used for the parser's IPv4 decomposition and for the
aggregator. -/

theorem Pfx.size_pos (p : Pfx) : 0 < p.size := Nat.pos_pow_of_pos _ (by omega)

theorem Pfx.mem_addrs {p : Pfx} {x : Nat} :
    x ∈ p.addrs ↔ p.addr ≤ x ∧ x < p.addr + p.size := by
  simp [Pfx.addrs]

theorem Pfx.addr_mem_addrs (p : Pfx) : p.addr ∈ p.addrs :=
  Pfx.mem_addrs.2 ⟨le_refl _, by have := p.size_pos; omega⟩

theorem Pfx.addrs_nonempty (p : Pfx) : p.addrs.Nonempty := ⟨p.addr, p.addr_mem_addrs⟩

theorem Pfx.ext_eq {p q : Pfx} (h1 : p.w = q.w) (h2 : p.addr = q.addr)
    (h3 : p.len = q.len) : p = q := by
  cases p; cases q; simp_all

theorem mem_listUnion {l : List Pfx} {x : Nat} :
    x ∈ listUnion l ↔ ∃ b ∈ l, x ∈ b.addrs := by
  induction l with
  | nil => simp [listUnion]
  | cons p l ih =>
    simp only [listUnion, List.foldr_cons, Finset.mem_union]
    rw [show (List.foldr (fun b acc => b.addrs ∪ acc) ∅ l) = listUnion l from rfl] at *
    constructor
    · rintro (h | h)
      · exact ⟨p, by simp, h⟩
      · obtain ⟨b, hb, hx⟩ := ih.1 h
        exact ⟨b, by simp [hb], hx⟩
    · rintro ⟨b, hb, hx⟩
      rcases List.mem_cons.mp hb with rfl | hb
      · exact Or.inl hx
      · exact Or.inr (ih.2 ⟨b, hb, hx⟩)

/-- The network address of a valid block is the largest multiple of its
size not exceeding any of its member addresses. -/
theorem Pfx.addr_eq_of_mem {p : Pfx} (hp : p.valid) {x : Nat} (hx : x ∈ p.addrs) :
    p.addr = p.size * (x / p.size) := by
  obtain ⟨hl, hb, ha⟩ := hp
  rw [Pfx.mem_addrs] at hx
  obtain ⟨k, hk⟩ : p.size ∣ p.addr := Nat.dvd_of_mod_eq_zero ha
  have hdiv : x / p.size = k := by
    apply Nat.div_eq_of_lt_le
    · rw [Nat.mul_comm]; omega
    · have h2 : (k + 1) * p.size = p.addr + p.size := by rw [hk]; ring
      omega
  rw [hdiv, hk]

/-- Nesting: if a shorter (or equal) valid block of the same family
meets a longer valid block at one address, the longer block is wholly
inside the shorter one. -/
theorem Pfx.nested_of_inter {p q : Pfx} (hp : p.valid) (hq : q.valid)
    (hw : p.w = q.w) (hlen : q.len ≤ p.len) {x : Nat}
    (hxp : x ∈ p.addrs) (hxq : x ∈ q.addrs) : p.addrs ⊆ q.addrs := by
  have hps : p.size ∣ q.size := by
    unfold Pfx.size
    rw [hw]
    exact pow_dvd_pow 2 (by omega)
  have hpq : p.size ≤ q.size := Nat.le_of_dvd q.size_pos hps
  have haq : p.size ∣ q.addr := dvd_trans hps (Nat.dvd_of_mod_eq_zero hq.2.2)
  have hap : p.size ∣ p.addr := Nat.dvd_of_mod_eq_zero hp.2.2
  have hpx := Pfx.addr_eq_of_mem hp hxp
  -- q.addr ≤ p.addr: q.addr is a multiple of p.size not exceeding x
  have h1 : q.addr ≤ p.addr := by
    obtain ⟨j, hj⟩ := haq
    have hjx : q.addr ≤ x := (Pfx.mem_addrs.1 hxq).1
    have : j ≤ x / p.size := by
      apply Nat.le_div_iff_mul_le p.size_pos |>.2
      calc j * p.size = p.size * j := by ring
      _ = q.addr := hj.symm
      _ ≤ x := hjx
    calc q.addr = p.size * j := hj
    _ ≤ p.size * (x / p.size) := Nat.mul_le_mul_left _ this
    _ = p.addr := hpx.symm
  -- p.addr + p.size ≤ q.addr + q.size: both ends are multiples of p.size
  have h2 : p.addr + p.size ≤ q.addr + q.size := by
    have hdl : p.size ∣ p.addr + p.size := by
      exact Nat.dvd_add hap dvd_rfl
    have hdr : p.size ∣ q.addr + q.size := Nat.dvd_add haq hps
    have hlt : p.addr < q.addr + q.size := by
      have h3 := (Pfx.mem_addrs.1 hxq).2
      have h4 := (Pfx.mem_addrs.1 hxp).1
      have h5 := (Pfx.mem_addrs.1 hxp).2
      omega
    obtain ⟨u, hu⟩ := hap
    obtain ⟨v, hv⟩ := hdr
    have hpos := p.size_pos
    have huv : u < v := by
      have : p.size * u < p.size * v := by rw [← hu, ← hv]; exact hlt
      exact lt_of_mul_lt_mul_left this (Nat.zero_le _)
    calc p.addr + p.size = p.size * (u + 1) := by rw [hu]; ring
    _ ≤ p.size * v := Nat.mul_le_mul_left _ huv
    _ = q.addr + q.size := hv.symm
  intro y hy
  rw [Pfx.mem_addrs] at hy ⊢
  omega

/-- Laminar property: two valid blocks of one family that share an
address nest one way or the other. -/
theorem Pfx.laminar {p q : Pfx} (hp : p.valid) (hq : q.valid) (hw : p.w = q.w)
    {x : Nat} (hxp : x ∈ p.addrs) (hxq : x ∈ q.addrs) :
    p.addrs ⊆ q.addrs ∨ q.addrs ⊆ p.addrs := by
  rcases le_total q.len p.len with h | h
  · exact Or.inl (Pfx.nested_of_inter hp hq hw h hxp hxq)
  · exact Or.inr (Pfx.nested_of_inter hq hp hw.symm h hxq hxp)

theorem Pfx.eq_of_addrs_eq {p q : Pfx} (hp : p.valid) (hq : q.valid)
    (hw : p.w = q.w) (h : p.addrs = q.addrs) : p = q := by
  have haddr : p.addr = q.addr := by
    have h1 : p.addr ∈ q.addrs := h ▸ p.addr_mem_addrs
    have h2 : q.addr ∈ p.addrs := h.symm ▸ q.addr_mem_addrs
    rw [Pfx.mem_addrs] at h1 h2
    omega
  have hsize : p.size = q.size := by
    have := congrArg Finset.card h
    rw [Pfx.addrs, Pfx.addrs, Nat.card_Ico, Nat.card_Ico] at this
    have hps := p.size_pos
    have hqs := q.size_pos
    omega
  have hlen : p.len = q.len := by
    unfold Pfx.size at hsize
    rw [hw] at hsize
    have := Nat.pow_right_injective (le_refl 2) hsize
    have hpl := hp.1
    have hql := hq.1
    omega
  exact Pfx.ext_eq hw haddr hlen

/-- The two halves of a block of length `< w`. -/
def Pfx.lowerHalf (p : Pfx) : Pfx := ⟨p.w, p.addr, p.len + 1⟩

def Pfx.upperHalf (p : Pfx) : Pfx := ⟨p.w, p.addr + 2 ^ (p.w - (p.len + 1)), p.len + 1⟩

theorem Pfx.half_size {p : Pfx} (hlen : p.len < p.w) :
    p.size = 2 * 2 ^ (p.w - (p.len + 1)) := by
  unfold Pfx.size
  have : p.w - p.len = (p.w - (p.len + 1)) + 1 := by omega
  rw [this, pow_succ]
  ring

theorem Pfx.lowerHalf_valid {p : Pfx} (hp : p.valid) (hlen : p.len < p.w) :
    p.lowerHalf.valid := by
  obtain ⟨h1, h2, h3⟩ := hp
  have hsz := Pfx.half_size hlen
  have hls : p.lowerHalf.size = 2 ^ (p.w - (p.len + 1)) := rfl
  have hd1 : p.lowerHalf.size ∣ p.size := ⟨2, by rw [hsz, hls]; ring⟩
  have hdvd : p.lowerHalf.size ∣ p.addr :=
    dvd_trans hd1 (Nat.dvd_of_mod_eq_zero h3)
  refine ⟨?_, ?_, ?_⟩
  · show p.len + 1 ≤ p.w
    omega
  · show p.addr + p.lowerHalf.size ≤ 2 ^ p.w
    have hps : p.size = 2 * p.lowerHalf.size := by rw [hsz, hls]
    omega
  · show p.addr % p.lowerHalf.size = 0
    exact Nat.mod_eq_zero_of_dvd hdvd

theorem Pfx.upperHalf_valid {p : Pfx} (hp : p.valid) (hlen : p.len < p.w) :
    p.upperHalf.valid := by
  obtain ⟨h1, h2, h3⟩ := hp
  have hsz := Pfx.half_size hlen
  have hus : p.upperHalf.size = 2 ^ (p.w - (p.len + 1)) := rfl
  have hd1 : p.upperHalf.size ∣ p.size := ⟨2, by rw [hsz, hus]; ring⟩
  have hdvd : p.upperHalf.size ∣ p.addr :=
    dvd_trans hd1 (Nat.dvd_of_mod_eq_zero h3)
  refine ⟨?_, ?_, ?_⟩
  · show p.len + 1 ≤ p.w
    omega
  · show (p.addr + 2 ^ (p.w - (p.len + 1))) + p.upperHalf.size ≤ 2 ^ p.w
    rw [hus]
    omega
  · show (p.addr + 2 ^ (p.w - (p.len + 1))) % p.upperHalf.size = 0
    rw [hus]
    apply Nat.mod_eq_zero_of_dvd
    exact Nat.dvd_add (by rw [← hus]; exact hdvd) dvd_rfl

theorem Pfx.addrs_split {p : Pfx} (hlen : p.len < p.w) :
    p.addrs = p.lowerHalf.addrs ∪ p.upperHalf.addrs := by
  have hsz := Pfx.half_size hlen
  have h1 : p.lowerHalf.addrs =
      Finset.Ico p.addr (p.addr + 2 ^ (p.w - (p.len + 1))) := rfl
  have h2 : p.upperHalf.addrs =
      Finset.Ico (p.addr + 2 ^ (p.w - (p.len + 1)))
        (p.addr + 2 ^ (p.w - (p.len + 1)) + 2 ^ (p.w - (p.len + 1))) := rfl
  rw [h1, h2, Finset.Ico_union_Ico_eq_Ico (by omega) (by omega)]
  unfold Pfx.addrs
  congr 1
  omega

theorem Pfx.parent_lowerHalf {p : Pfx} (hp : p.valid) (hlen : p.len < p.w) :
    p.lowerHalf.parentOf = p := by
  have hsz := Pfx.half_size hlen
  unfold Pfx.parentOf Pfx.lowerHalf
  have h2 : 2 * (⟨p.w, p.addr, p.len + 1⟩ : Pfx).size = p.size := by
    show 2 * 2 ^ (p.w - (p.len + 1)) = p.size
    omega
  rw [h2, hp.2.2]
  simp

theorem Pfx.parent_upperHalf {p : Pfx} (hp : p.valid) (hlen : p.len < p.w) :
    p.upperHalf.parentOf = p := by
  have hsz := Pfx.half_size hlen
  unfold Pfx.parentOf Pfx.upperHalf
  have h2 : 2 * (⟨p.w, p.addr + 2 ^ (p.w - (p.len + 1)), p.len + 1⟩ : Pfx).size = p.size := by
    show 2 * 2 ^ (p.w - (p.len + 1)) = p.size
    omega
  rw [h2]
  have hmod : (p.addr + 2 ^ (p.w - (p.len + 1))) % p.size = 2 ^ (p.w - (p.len + 1)) := by
    obtain ⟨k, hk⟩ : p.size ∣ p.addr := Nat.dvd_of_mod_eq_zero hp.2.2
    rw [hk, Nat.mul_add_mod]
    have hpos : 0 < 2 ^ (p.w - (p.len + 1)) := Nat.pos_pow_of_pos _ (by omega)
    exact Nat.mod_eq_of_lt (by omega)
  rw [hmod]
  simp

theorem Pfx.sib_halves {p : Pfx} (hp : p.valid) (hlen : p.len < p.w) :
    Sib p.lowerHalf p.upperHalf := by
  refine ⟨rfl, rfl, by show 0 < p.len + 1; omega, ?_, ?_⟩
  · rw [Pfx.parent_lowerHalf hp hlen, Pfx.parent_upperHalf hp hlen]
  · intro h
    have := congrArg Pfx.addr h
    have hpos : 0 < 2 ^ (p.w - (p.len + 1)) := Nat.pos_pow_of_pos _ (by omega)
    simp only [Pfx.lowerHalf, Pfx.upperHalf] at this
    omega

theorem Pfx.lower_addr_not_upper {p : Pfx} (hlen : p.len < p.w) :
    p.lowerHalf.addr ∉ p.upperHalf.addrs := by
  rw [Pfx.mem_addrs]
  have hpos : 0 < 2 ^ (p.w - (p.len + 1)) := Nat.pos_pow_of_pos _ (by omega)
  intro h
  have h1 : p.upperHalf.addr = p.addr + 2 ^ (p.w - (p.len + 1)) := rfl
  have h2 : p.lowerHalf.addr = p.addr := rfl
  rw [h1, h2] at h
  omega

theorem Pfx.upper_addr_not_lower {p : Pfx} (hlen : p.len < p.w) :
    p.upperHalf.addr ∉ p.lowerHalf.addrs := by
  rw [Pfx.mem_addrs]
  have hpos : 0 < 2 ^ (p.w - (p.len + 1)) := Nat.pos_pow_of_pos _ (by omega)
  intro h
  have h1 : p.upperHalf.addr = p.addr + 2 ^ (p.w - (p.len + 1)) := rfl
  have h2 : p.lowerHalf.addr = p.addr := rfl
  have h3 : p.lowerHalf.size = 2 ^ (p.w - (p.len + 1)) := rfl
  rw [h1, h2, h3] at h
  omega

/-- A pairwise disjoint family of valid blocks of one family with no
sibling pair is "saturated": any valid block contained in its union is
contained in a single member.  (Its members are exactly the maximal
blocks of the union.) -/
theorem cover_exists (W : Nat) (R : List Pfx)
    (hval : ∀ b ∈ R, b.valid) (hw : ∀ b ∈ R, b.w = W)
    (hdisj : ∀ a ∈ R, ∀ b ∈ R, a ≠ b → Disjoint a.addrs b.addrs)
    (hnosib : NoSib R) :
    ∀ n (P : Pfx), W - P.len = n → P.valid → P.w = W →
      P.addrs ⊆ listUnion R → ∃ c ∈ R, P.addrs ⊆ c.addrs := by
  intro n
  induction n with
  | zero =>
    intro P hn hPv hPw hsub
    have hlen : P.len = W := by
      have h1 := hPv.1
      rw [hPw] at h1
      omega
    have hsize : P.size = 1 := by
      unfold Pfx.size
      rw [hPw, hlen]
      simp
    obtain ⟨c, hcR, hc⟩ := mem_listUnion.1 (hsub P.addr_mem_addrs)
    refine ⟨c, hcR, fun y hy => ?_⟩
    have : y = P.addr := by
      rw [Pfx.mem_addrs, hsize] at hy
      omega
    rwa [this]
  | succ m ih =>
    intro P hn hPv hPw hsub
    have hlw : P.len < P.w := by
      rw [hPw]; omega
    have h0v := Pfx.lowerHalf_valid hPv hlw
    have h1v := Pfx.upperHalf_valid hPv hlw
    have hsplit := Pfx.addrs_split hlw
    have hsub0 : P.lowerHalf.addrs ⊆ listUnion R := by
      intro y hy
      exact hsub (by rw [hsplit]; exact Finset.mem_union_left _ hy)
    have hsub1 : P.upperHalf.addrs ⊆ listUnion R := by
      intro y hy
      exact hsub (by rw [hsplit]; exact Finset.mem_union_right _ hy)
    obtain ⟨c0, hc0R, hc0⟩ := ih P.lowerHalf (by show W - (P.len + 1) = m; omega) h0v hPw hsub0
    obtain ⟨c1, hc1R, hc1⟩ := ih P.upperHalf (by show W - (P.len + 1) = m; omega) h1v hPw hsub1
    by_cases hcc : c0 = c1
    · refine ⟨c0, hc0R, ?_⟩
      rw [hsplit]
      exact Finset.union_subset hc0 (hcc ▸ hc1)
    · have hx0 : P.lowerHalf.addr ∈ c0.addrs := hc0 P.lowerHalf.addr_mem_addrs
      have hx0P : P.lowerHalf.addr ∈ P.addrs := by
        rw [hsplit]; exact Finset.mem_union_left _ P.lowerHalf.addr_mem_addrs
      have hx1 : P.upperHalf.addr ∈ c1.addrs := hc1 P.upperHalf.addr_mem_addrs
      have hx1P : P.upperHalf.addr ∈ P.addrs := by
        rw [hsplit]; exact Finset.mem_union_right _ P.upperHalf.addr_mem_addrs
      rcases Pfx.laminar (hval c0 hc0R) hPv (by rw [hw c0 hc0R, hPw]) hx0 hx0P
        with hcP0 | hPc0
      swap
      · exact ⟨c0, hc0R, hPc0⟩
      rcases Pfx.laminar (hval c1 hc1R) hPv (by rw [hw c1 hc1R, hPw]) hx1 hx1P
        with hcP1 | hPc1
      swap
      · exact ⟨c1, hc1R, hPc1⟩
      -- c0 and c1 are both inside P; show they are exactly its halves
      have heq0 : c0.addrs = P.lowerHalf.addrs := by
        apply Finset.Subset.antisymm _ hc0
        intro y hy
        have hyP : y ∈ P.addrs := hcP0 hy
        rw [hsplit] at hyP
        rcases Finset.mem_union.mp hyP with hyl | hyu
        · exact hyl
        · -- c0 would meet the upper half
          exfalso
          rcases Pfx.laminar (hval c0 hc0R) h1v
            (by show c0.w = P.w; rw [hw c0 hc0R, hPw]) hy hyu
            with hA | hB
          · exact Pfx.lower_addr_not_upper hlw (hA hx0)
          · -- the upper half is inside c0, so c0 meets c1 at its address
            have : P.upperHalf.addr ∈ c0.addrs := hB P.upperHalf.addr_mem_addrs
            exact Finset.disjoint_left.1 (hdisj c0 hc0R c1 hc1R hcc) this hx1
      have heq1 : c1.addrs = P.upperHalf.addrs := by
        apply Finset.Subset.antisymm _ hc1
        intro y hy
        have hyP : y ∈ P.addrs := hcP1 hy
        rw [hsplit] at hyP
        rcases Finset.mem_union.mp hyP with hyl | hyu
        · exfalso
          rcases Pfx.laminar (hval c1 hc1R) h0v
            (by show c1.w = P.w; rw [hw c1 hc1R, hPw]) hy hyl
            with hA | hB
          · exact Pfx.upper_addr_not_lower hlw (hA hx1)
          · have : P.lowerHalf.addr ∈ c1.addrs := hB P.lowerHalf.addr_mem_addrs
            exact Finset.disjoint_left.1 (hdisj c0 hc0R c1 hc1R hcc) hx0 this
        · exact hyu
      have hc0e : c0 = P.lowerHalf :=
        Pfx.eq_of_addrs_eq (hval c0 hc0R) h0v
          (by show c0.w = P.w; rw [hw c0 hc0R, hPw]) heq0
      have hc1e : c1 = P.upperHalf :=
        Pfx.eq_of_addrs_eq (hval c1 hc1R) h1v
          (by show c1.w = P.w; rw [hw c1 hc1R, hPw]) heq1
      exfalso
      apply hnosib c0 hc0R c1 hc1R
      rw [hc0e, hc1e]
      exact Pfx.sib_halves hPv hlw

/-- A pairwise disjoint, sibling-free family of valid blocks is the
unique minimum-cardinality set of valid CIDR blocks with its union:
every other exact cover has at least as many blocks, and an exact cover
of the same cardinality is equal to it. -/
theorem cover_minimal (W : Nat) (R : List Pfx)
    (hval : ∀ b ∈ R, b.valid) (hw : ∀ b ∈ R, b.w = W)
    (hpw : R.Pairwise (fun a b => Disjoint a.addrs b.addrs))
    (hnosib : NoSib R)
    (C : Finset Pfx) (hCval : ∀ b ∈ C, b.valid) (hCw : ∀ b ∈ C, b.w = W)
    (hCU : C.biUnion Pfx.addrs = listUnion R) :
    R.length ≤ C.card ∧ (C.card = R.length → C = R.toFinset) := by
  classical
  have hdisj : ∀ a ∈ R, ∀ b ∈ R, a ≠ b → Disjoint a.addrs b.addrs := by
    intro a ha b hb hne
    exact List.Pairwise.forall (fun x y h => h.symm) hpw ha hb hne
  have hnd : R.Nodup := by
    refine hpw.imp ?_
    intro a b hab heq
    subst heq
    have h0 := disjoint_self.mp hab
    rw [Finset.bot_eq_empty] at h0
    exact absurd h0 (Finset.nonempty_iff_ne_empty.1 a.addrs_nonempty)
  have hchoose : ∀ c ∈ C, ∃ B, B ∈ R ∧ c.addrs ⊆ B.addrs := by
    intro c hc
    exact cover_exists W R hval hw hdisj hnosib (W - c.len) c rfl
      (hCval c hc) (hCw c hc)
      (by rw [← hCU]; exact fun y hy => Finset.mem_biUnion.2 ⟨c, hc, hy⟩)
  let f : Pfx → Pfx := fun c =>
    if h : ∃ B, B ∈ R ∧ c.addrs ⊆ B.addrs then h.choose else c
  have hfmem : ∀ c ∈ C, f c ∈ R ∧ c.addrs ⊆ (f c).addrs := by
    intro c hc
    have h := hchoose c hc
    show (if h : ∃ B, B ∈ R ∧ c.addrs ⊆ B.addrs then h.choose else c) ∈ R ∧
      c.addrs ⊆ (if h : ∃ B, B ∈ R ∧ c.addrs ⊆ B.addrs then h.choose else c).addrs
    rw [dif_pos h]
    exact ⟨h.choose_spec.1, h.choose_spec.2⟩
  have hRtoF : R.toFinset.card = R.length := List.toFinset_card_of_nodup hnd
  have hsurj : ∀ B ∈ R, ∃ c, c ∈ C ∧ f c = B := by
    intro B hBR
    have hBx : B.addr ∈ listUnion R := mem_listUnion.2 ⟨B, hBR, B.addr_mem_addrs⟩
    rw [← hCU] at hBx
    obtain ⟨c, hc, hcx⟩ := Finset.mem_biUnion.1 hBx
    refine ⟨c, hc, ?_⟩
    obtain ⟨hfc, hsub⟩ := hfmem c hc
    by_contra hne
    exact Finset.disjoint_left.1 (hdisj (f c) hfc B hBR hne) (hsub hcx) B.addr_mem_addrs
  have hsurjOn : Set.SurjOn f ↑C ↑R.toFinset := by
    intro B hB
    rw [Finset.mem_coe, List.mem_toFinset] at hB
    obtain ⟨c, hc, hfeq⟩ := hsurj B hB
    exact ⟨c, Finset.mem_coe.2 hc, hfeq⟩
  have hcard : R.length ≤ C.card := by
    have h1 := Finset.card_le_card_of_surjOn f hsurjOn
    omega
  refine ⟨hcard, ?_⟩
  intro hcc
  have hinj : ∀ c1 ∈ C, ∀ c2 ∈ C, f c1 = f c2 → c1 = c2 := by
    intro c1 hc1 c2 hc2 hfe
    exact Finset.inj_on_of_surj_on_of_card_le (fun a _ => f a)
      (fun a ha => List.mem_toFinset.2 (hfmem a ha).1)
      (fun B hB => by
        obtain ⟨c, hc, hfeq⟩ := hsurj B (List.mem_toFinset.1 hB)
        exact ⟨c, hc, hfeq⟩)
      (by omega) hc1 hc2 hfe
  have hcfix : ∀ c ∈ C, c = f c := by
    intro c hc
    obtain ⟨hfc, hsub⟩ := hfmem c hc
    have hBsub : (f c).addrs ⊆ c.addrs := by
      intro y hy
      have hyU : y ∈ listUnion R := mem_listUnion.2 ⟨f c, hfc, hy⟩
      rw [← hCU] at hyU
      obtain ⟨c', hc', hyc'⟩ := Finset.mem_biUnion.1 hyU
      obtain ⟨hfc', hsub'⟩ := hfmem c' hc'
      have hff : f c' = f c := by
        by_contra hne
        exact Finset.disjoint_left.1 (hdisj (f c') hfc' (f c) hfc hne) (hsub' hyc') hy
      have hcc' : c' = c := hinj c' hc' c hc hff
      rw [hcc'] at hyc'
      exact hyc'
    have haddrs : c.addrs = (f c).addrs := Finset.Subset.antisymm hsub hBsub
    exact Pfx.eq_of_addrs_eq (hCval c hc) (hval _ hfc)
      (by rw [hCw c hc, hw _ hfc]) haddrs
  have hCsub : C ⊆ R.toFinset := by
    intro c hc
    rw [List.mem_toFinset]
    rw [hcfix c hc]
    exact (hfmem c hc).1
  exact Finset.eq_of_subset_of_card_le hCsub (by omega)

/-! ## The parser's IPv4 decomposition (`RIRParser._ipv4_to_cidrs`)

The two `while` loops of `_ipv4_to_cidrs` are written with an explicit
iteration bound ("fuel").  The bounds supplied by the wrappers are
provably sufficient: the inner loop doubles `max_block_size` starting
from 1 and the outer loop advances `current` by at least 1, so
`end - current + 1` iterations always suffice for both.  The
`ipaddress.IPv4Address` / `ipaddress.IPv4Network` constructor calls in
the loop body raise `ValueError` (caught by the surrounding `except`,
which returns `[]`) when the address exceeds 32 bits, the prefix length
falls outside `[0, 32]`, or a host bit is set; these checks appear as
the guard returning `none`. -/

/-- Python's `int.bit_length`, exact for arguments below `2 ^ 64` (the
only property used elsewhere is exactness on `2 ^ k - 1` for
`k ≤ 32` and the value being at least 33 for arguments of 33 bits or
more, which the fuel of 64 provides for every block size reachable
here). -/
def pyBitLengthGo : Nat → Nat → Nat
  | 0, _ => 0
  | fuel + 1, n => if n = 0 then 0 else pyBitLengthGo fuel (n / 2) + 1

def pyBitLength (n : Nat) : Nat := pyBitLengthGo 64 n

theorem pyBitLengthGo_pow {k : Nat} : ∀ fuel, k ≤ fuel →
    pyBitLengthGo fuel (2 ^ k - 1) = k := by
  induction k with
  | zero =>
    intro fuel _
    cases fuel with
    | zero => rfl
    | succ f => simp [pyBitLengthGo]
  | succ j ih =>
    intro fuel hf
    cases fuel with
    | zero => omega
    | succ f =>
      have hne : 2 ^ (j + 1) - 1 ≠ 0 := by
        have : 2 ≤ 2 ^ (j + 1) := Nat.one_lt_two_pow_iff.2 (by omega)
        omega
      have hdiv : (2 ^ (j + 1) - 1) / 2 = 2 ^ j - 1 := by
        have h2 : 2 ^ (j + 1) = 2 * 2 ^ j := by rw [pow_succ]; ring
        have hp : 1 ≤ 2 ^ j := Nat.one_le_two_pow
        omega
      simp only [pyBitLengthGo, if_neg hne, hdiv]
      rw [ih f (by omega)]

theorem pyBitLength_pow {k : Nat} (hk : k ≤ 64) : pyBitLength (2 ^ k - 1) = k :=
  pyBitLengthGo_pow 64 hk

/-- The inner `while` loop of `_ipv4_to_cidrs`: double `max_block_size`
while `current` stays aligned and the doubled block still fits. -/
def growBlock : Nat → Nat → Int → Nat → Nat
  | 0, _, _, mbs => mbs
  | fuel + 1, current, endInt, mbs =>
    if current % (mbs * 2) = 0 ∧ (current : Int) + mbs * 2 - 1 ≤ endInt then
      growBlock fuel current endInt (mbs * 2)
    else mbs

theorem growBlock_inv : ∀ (fuel : Nat) (current : Nat) (endInt : Int) (m k0 : Nat),
    m = 2 ^ k0 → current % m = 0 → (current : Int) + m - 1 ≤ endInt →
    ∃ k, growBlock fuel current endInt m = 2 ^ k ∧ current % 2 ^ k = 0 ∧
      (current : Int) + 2 ^ k - 1 ≤ endInt ∧ m ≤ 2 ^ k := by
  intro fuel
  induction fuel with
  | zero =>
    intro current endInt m k0 hm ha hb
    refine ⟨k0, ?_, ?_, ?_, le_of_eq hm⟩
    · simpa [growBlock] using hm
    · rwa [← hm]
    · rw [hm] at hb
      push_cast at hb ⊢
      exact hb
  | succ f ih =>
    intro current endInt m k0 hm ha hb
    simp only [growBlock]
    by_cases hcond : current % (m * 2) = 0 ∧ (current : Int) + m * 2 - 1 ≤ endInt
    · rw [if_pos hcond]
      obtain ⟨k, h1, h2, h3, h4⟩ := ih current endInt (m * 2) (k0 + 1)
        (by rw [hm, pow_succ]) hcond.1 (by push_cast; push_cast at hcond; omega)
      exact ⟨k, h1, h2, h3, by omega⟩
    · rw [if_neg hcond]
      refine ⟨k0, hm, ?_, ?_, le_of_eq hm⟩
      · rwa [← hm]
      · rw [hm] at hb
        push_cast at hb ⊢
        exact hb

theorem growBlock_max : ∀ (fuel : Nat) (current : Nat) (endInt : Int) (m : Nat), 0 < m →
    endInt + 1 - current < (m : Int) * 2 ^ fuel →
    ¬ ((current % (growBlock fuel current endInt m * 2) = 0) ∧
       (current : Int) + growBlock fuel current endInt m * 2 - 1 ≤ endInt) := by
  intro fuel
  induction fuel with
  | zero =>
    intro current endInt m hm hlt
    simp only [growBlock]
    rintro ⟨-, h2⟩
    simp only [pow_zero, mul_one] at hlt
    push_cast at h2
    omega
  | succ f ih =>
    intro current endInt m hm hlt
    simp only [growBlock]
    by_cases hcond : current % (m * 2) = 0 ∧ (current : Int) + m * 2 - 1 ≤ endInt
    · rw [if_pos hcond]
      apply ih current endInt (m * 2) (by omega)
      have : ((m * 2 : Nat) : Int) * 2 ^ f = (m : Int) * 2 ^ (f + 1) := by
        push_cast
        ring
      rw [this]
      exact hlt
    · rw [if_neg hcond]
      exact hcond

/-- The outer `while` loop of `_ipv4_to_cidrs`.  `none` is the
`ValueError` path of the loop body (address above `2 ^ 32 - 1`, prefix
length outside `[0, 32]`, or host bits set), which the surrounding
`except` turns into `[]`. -/
def greedyGo : Nat → Nat → Int → Option (List Pfx)
  | 0, _, _ => some []
  | fuel + 1, current, endInt =>
    if (current : Int) ≤ endInt then
      let m := growBlock (endInt + 1 - current).toNat current endInt 1
      -- prefix_len = 32 - (max_block_size - 1).bit_length(); the
      -- special case for max_block_size == 1 gives the same value
      -- because bit_length(0) = 0
      let pl : Int := 32 - pyBitLength (m - 1)
      if 0 ≤ pl ∧ pl ≤ 32 ∧ current < 2 ^ 32 ∧ current % 2 ^ (32 - pl.toNat) = 0 then
        (greedyGo fuel (current + m) endInt).map
          (fun rest => (⟨32, current, pl.toNat⟩ : Pfx) :: rest)
      else none
    else some []

/-- `RIRParser._ipv4_to_cidrs` after the `start` string has been parsed
to its integer value: `end_int = start_int + count - 1`, and the
`except ValueError` branch returns `[]`.  The iteration bound
`count.toNat` is the number of addresses of the range, which bounds the
number of loop iterations since every iteration advances `current` by
at least one. -/
def ipv4ToCidrsNum (startInt : Nat) (count : Int) : List Pfx :=
  (greedyGo count.toNat startInt ((startInt : Int) + count - 1)).getD []

/-- `bs` tiles the address interval `[c, e)` exactly, in order. -/
def Tiles : Nat → List Pfx → Nat → Prop
  | c, [], e => c = e
  | c, b :: bs, e => b.addr = c ∧ Tiles (c + b.size) bs e

theorem tiles_union {bs : List Pfx} : ∀ {c e : Nat}, Tiles c bs e →
    listUnion bs = Finset.Ico c e ∧ c ≤ e := by
  induction bs with
  | nil =>
    intro c e h
    obtain rfl : c = e := h
    constructor
    · show (∅ : Finset Nat) = Finset.Ico c c
      simp
    · exact le_refl c
  | cons b bs ih =>
    intro c e h
    obtain ⟨hb, ht⟩ := h
    obtain ⟨hu, hce⟩ := ih ht
    have hbs : b.addrs = Finset.Ico c (c + b.size) := by
      unfold Pfx.addrs
      rw [hb]
    constructor
    · show b.addrs ∪ listUnion bs = Finset.Ico c e
      rw [hbs, hu, Finset.Ico_union_Ico_eq_Ico (by omega) hce]
    · have := b.size_pos
      omega

theorem tiles_mem_bounds {bs : List Pfx} : ∀ {c e : Nat}, Tiles c bs e →
    ∀ b ∈ bs, c ≤ b.addr ∧ b.addr + b.size ≤ e := by
  induction bs with
  | nil => intro c e _ b hb; cases hb
  | cons b0 bs ih =>
    intro c e h b hb
    obtain ⟨hb0, ht⟩ := h
    have hsz := b0.size_pos
    rcases List.mem_cons.mp hb with rfl | hb
    · have := (tiles_union ht).2
      omega
    · have := ih ht b hb
      omega

theorem tiles_disjoint {bs : List Pfx} : ∀ {c e : Nat}, Tiles c bs e →
    bs.Pairwise (fun a b => Disjoint a.addrs b.addrs) := by
  induction bs with
  | nil => intro c e _; exact List.Pairwise.nil
  | cons b0 bs ih =>
    intro c e h
    obtain ⟨hb0, ht⟩ := h
    refine List.Pairwise.cons ?_ (ih ht)
    intro b hb
    have hbnd := tiles_mem_bounds ht b hb
    rw [Finset.disjoint_left]
    intro x hx0 hxb
    rw [Pfx.mem_addrs] at hx0 hxb
    omega

/-- Main loop invariant for `_ipv4_to_cidrs`: with sufficient fuel and
the range inside the address space, the loop succeeds and produces an
exact tiling by valid maximal blocks. -/
theorem greedyGo_spec (endInt : Int) (hend : endInt < 2 ^ 32) :
    ∀ (fuel : Nat) (current : Nat), (current : Int) ≤ endInt + 1 →
    (endInt + 1 - current).toNat ≤ fuel →
    ∃ bs, greedyGo fuel current endInt = some bs ∧
      Tiles current bs (endInt + 1).toNat ∧
      (∀ b ∈ bs, b.valid ∧ b.w = 32) ∧
      (∀ b ∈ bs, ¬ (b.addr % (2 * b.size) = 0 ∧
        (b.addr : Int) + 2 * b.size - 1 ≤ endInt)) := by
  intro fuel
  induction fuel with
  | zero =>
    intro current hcur hfuel
    have hc : (current : Int) = endInt + 1 := by omega
    refine ⟨[], rfl, ?_, by simp, by simp⟩
    show current = (endInt + 1).toNat
    omega
  | succ f ih =>
    intro current hcur hfuel
    by_cases hloop : (current : Int) ≤ endInt
    · -- one more block is emitted
      have halign : current % 1 = 0 := Nat.mod_one current
      have hfit : (current : Int) + 1 - 1 ≤ endInt := by omega
      obtain ⟨k, hgk, hka, hkf, -⟩ :=
        growBlock_inv ((endInt + 1 - current).toNat) current endInt 1 0 rfl halign hfit
      have hmax2 := growBlock_max ((endInt + 1 - current).toNat) current endInt 1
        (by omega) (by
          have h2 : ((endInt + 1 - current).toNat : Int) <
              2 ^ ((endInt + 1 - current).toNat) := by
            exact_mod_cast Nat.lt_two_pow ((endInt + 1 - current).toNat)
          push_cast
          omega)
      rw [hgk] at hmax2
      have hk32 : k ≤ 32 := by
        by_contra hgt
        have h1 : (2 : Int) ^ 33 ≤ 2 ^ k := pow_le_pow_right (by norm_num) (by omega)
        have h3 : (0 : Int) ≤ (current : Int) := Int.natCast_nonneg current
        have h4 : (2 : Int) ^ 33 = 2 * 2 ^ 32 := by norm_num
        have h5 : (0 : Int) < 2 ^ 32 := by positivity
        omega
      have hpl : (32 : Int) - (pyBitLength (2 ^ k - 1) : Int) = 32 - (k : Int) := by
        rw [pyBitLength_pow (by omega)]
      have hsize : (2 : Nat) ^ (32 - ((32 : Int) - (k : Int)).toNat) = 2 ^ k := by
        congr 1
        omega
      simp only [greedyGo, if_pos hloop]
      rw [hgk, hpl]
      have hcond : (0 : Int) ≤ 32 - (k : Int) ∧ (32 - (k : Int)) ≤ 32 ∧ current < 2 ^ 32 ∧
          current % 2 ^ (32 - ((32 : Int) - (k : Int)).toNat) = 0 := by
        refine ⟨by omega, by omega, ?_, ?_⟩
        · have h3 : (0 : Int) < 2 ^ k := by positivity
          have h6 : ((2 : Nat) ^ 32 : Int) = 2 ^ 32 := by norm_cast
          omega
        · rw [hsize]
          exact hka
      rw [if_pos hcond]
      have hbsize : (⟨32, current, ((32 : Int) - (k : Int)).toNat⟩ : Pfx).size = 2 ^ k := by
        show (2 : Nat) ^ (32 - ((32 : Int) - (k : Int)).toNat) = 2 ^ k
        rw [hsize]
      have hrec1 : ((current + 2 ^ k : Nat) : Int) ≤ endInt + 1 := by
        push_cast
        push_cast at hkf
        omega
      have hrec2 : (endInt + 1 - ((current + 2 ^ k : Nat) : Int)).toNat ≤ f := by
        have hp : (0 : Int) < 2 ^ k := by positivity
        push_cast
        omega
      obtain ⟨bs, hbs, htiles, hval, hmaxall⟩ := ih (current + 2 ^ k) hrec1 hrec2
      refine ⟨(⟨32, current, ((32 : Int) - (k : Int)).toNat⟩ : Pfx) :: bs, ?_, ?_, ?_, ?_⟩
      · rw [hbs]
        rfl
      · refine ⟨rfl, ?_⟩
        rw [hbsize]
        exact htiles
      · intro b hb
        rcases List.mem_cons.mp hb with rfl | hb
        · refine ⟨⟨?_, ?_, ?_⟩, rfl⟩
          · show ((32 : Int) - (k : Int)).toNat ≤ 32
            omega
          · show current + _ ≤ 2 ^ 32
            rw [hbsize]
            have h6 : (((2 : Nat) ^ 32 : Nat) : Int) = 2 ^ 32 := by norm_cast
            have h7 : (((2 : Nat) ^ k : Nat) : Int) = 2 ^ k := by norm_cast
            omega
          · show current % _ = 0
            rw [hbsize]
            exact hka
        · exact hval b hb
      · intro b hb
        rcases List.mem_cons.mp hb with rfl | hb
        · rw [hbsize]
          rintro ⟨hc1, hc2⟩
          apply hmax2
          refine ⟨?_, ?_⟩
          · have hc1' : current % (2 * 2 ^ k) = 0 := hc1
            rw [Nat.mul_comm] at hc1'
            exact hc1'
          · have hc2' : (current : Int) + 2 * ((2 ^ k : Nat) : Int) - 1 ≤ endInt := hc2
            push_cast at hc2' ⊢
            omega
        · exact hmaxall b hb
    · -- current = endInt + 1 : the loop is done
      simp only [greedyGo, if_neg hloop]
      refine ⟨[], rfl, ?_, by simp, by simp⟩
      show current = (endInt + 1).toNat
      omega

theorem Pfx.mod_two_size {b : Pfx} (hb : b.valid) :
    b.addr % (2 * b.size) = 0 ∨ b.addr % (2 * b.size) = b.size := by
  obtain ⟨j, hj⟩ : b.size ∣ b.addr := Nat.dvd_of_mod_eq_zero hb.2.2
  have h1 : b.addr % (2 * b.size) = b.size * (j % 2) := by
    rw [hj, Nat.mul_comm 2 b.size]
    exact Nat.mul_mod_mul_left b.size j 2
  rcases Nat.mod_two_eq_zero_or_one j with h | h
  · rw [h, Nat.mul_zero] at h1
    exact Or.inl h1
  · rw [h, Nat.mul_one] at h1
    exact Or.inr h1

/-- Two sibling blocks are the two halves of their common parent: one
is aligned to twice the size and the other sits immediately above it. -/
theorem sib_cases {b b' : Pfx} (hb : b.valid) (hb' : b'.valid) (hs : Sib b b') :
    (b.addr % (2 * b.size) = 0 ∧ b'.addr = b.addr + b.size) ∨
    (b'.addr % (2 * b'.size) = 0 ∧ b.addr = b'.addr + b'.size) := by
  obtain ⟨hw, hlen, hpos, hpar, hne⟩ := hs
  have hsz : b.size = b'.size := by
    unfold Pfx.size
    rw [hw, hlen]
  have haddr := congrArg Pfx.addr hpar
  simp only [Pfx.parentOf] at haddr
  have hm := Pfx.mod_two_size hb
  have hm' := Pfx.mod_two_size hb'
  have hle : b.addr % (2 * b.size) ≤ b.addr := Nat.mod_le _ _
  have hle' : b'.addr % (2 * b'.size) ≤ b'.addr := Nat.mod_le _ _
  have hszpos := b.size_pos
  rcases hm with h0 | h0 <;> rcases hm' with h1 | h1
  · exfalso
    apply hne
    apply Pfx.ext_eq hw _ hlen
    rw [h0, h1] at haddr
    omega
  · left
    rw [h0, h1] at haddr
    exact ⟨h0, by omega⟩
  · right
    rw [h0, h1] at haddr
    exact ⟨h1, by omega⟩
  · exfalso
    apply hne
    apply Pfx.ext_eq hw _ hlen
    rw [h0, h1] at haddr
    omega

/-- A tiling by maximal blocks has no sibling pair: the aligned half of
a sibling pair could have been doubled. -/
theorem tiles_nosib {bs : List Pfx} {c e : Nat} (ht : Tiles c bs e) (endInt : Int)
    (he : (e : Int) = endInt + 1)
    (hval : ∀ b ∈ bs, b.valid)
    (hmax : ∀ b ∈ bs, ¬ (b.addr % (2 * b.size) = 0 ∧
      (b.addr : Int) + 2 * b.size - 1 ≤ endInt)) :
    NoSib bs := by
  intro b hb b' hb' hs
  have hbv := hval b hb
  have hb'v := hval b' hb'
  have hbnd := tiles_mem_bounds ht b hb
  have hbnd' := tiles_mem_bounds ht b' hb'
  have hsz : b.size = b'.size := by
    unfold Pfx.size
    rw [hs.1, hs.2.1]
  rcases sib_cases hbv hb'v hs with ⟨ha, hup⟩ | ⟨ha, hup⟩
  · apply hmax b hb
    refine ⟨ha, ?_⟩
    have hbound : b.addr + 2 * b.size ≤ e := by omega
    push_cast
    omega
  · apply hmax b' hb'
    refine ⟨ha, ?_⟩
    have hbound : b'.addr + 2 * b'.size ≤ e := by omega
    push_cast
    omega

/-- C2.  For every IPv4 start address and positive host count that fit
in the 32-bit address space, `_ipv4_to_cidrs` succeeds and emits a list
of valid CIDR blocks that partitions `[start, start+count-1]` exactly,
contains no sibling pair, and is the unique minimum-cardinality set of
CIDR blocks with that union: any set of valid blocks covering the same
addresses has at least as many blocks, with equality only for this very
set. -/
theorem ipv4_decomposition_minimal (startInt count : Nat) (h1 : 0 < count)
    (h2 : startInt + count ≤ 2 ^ 32) :
    (∀ b ∈ ipv4ToCidrsNum startInt (count : Int), b.valid ∧ b.w = 32) ∧
    listUnion (ipv4ToCidrsNum startInt (count : Int)) =
      Finset.Ico startInt (startInt + count) ∧
    (ipv4ToCidrsNum startInt (count : Int)).Pairwise
      (fun a b => Disjoint a.addrs b.addrs) ∧
    NoSib (ipv4ToCidrsNum startInt (count : Int)) ∧
    (∀ C : Finset Pfx, (∀ b ∈ C, b.valid ∧ b.w = 32) →
      C.biUnion Pfx.addrs = Finset.Ico startInt (startInt + count) →
      (ipv4ToCidrsNum startInt (count : Int)).length ≤ C.card ∧
      (C.card = (ipv4ToCidrsNum startInt (count : Int)).length →
        C = (ipv4ToCidrsNum startInt (count : Int)).toFinset)) := by
  have h2' : (startInt : Int) + count ≤ 2 ^ 32 := by exact_mod_cast h2
  have hend : ((startInt : Int) + count - 1) < 2 ^ 32 := by omega
  obtain ⟨bs, hbs, htiles, hval, hmax⟩ :=
    greedyGo_spec ((startInt : Int) + count - 1) hend ((count : Int)).toNat startInt
      (by omega) (by omega)
  have hres : ipv4ToCidrsNum startInt (count : Int) = bs := by
    unfold ipv4ToCidrsNum
    rw [hbs]
    rfl
  have hee : (((startInt : Int) + count - 1) + 1).toNat = startInt + count := by omega
  rw [hee] at htiles
  have he2 : ((startInt + count : Nat) : Int) = ((startInt : Int) + count - 1) + 1 := by
    push_cast
    ring
  have hw32 : ∀ b ∈ bs, b.w = 32 := fun b hb => (hval b hb).2
  have hval' : ∀ b ∈ bs, b.valid := fun b hb => (hval b hb).1
  have hunion := (tiles_union htiles).1
  have hpw := tiles_disjoint htiles
  have hnosib := tiles_nosib htiles ((startInt : Int) + count - 1) he2 hval' hmax
  rw [hres]
  refine ⟨hval, hunion, hpw, hnosib, ?_⟩
  intro C hC hCU
  exact cover_minimal 32 bs hval' hw32 hpw hnosib C
    (fun b hb => (hC b hb).1) (fun b hb => (hC b hb).2) (by rw [hCU, hunion])

/-- Witness for C2: a concrete non-power-of-two range (scenario A of
the specification: 4096 addresses from 1.0.16.0 decompose into two /21
blocks, and no smaller CIDR cover exists). -/
theorem ipv4_decomposition_minimal_witness :
    0 < 4096 ∧ 16781312 + 4096 ≤ 2 ^ 32 ∧
    (listUnion (ipv4ToCidrsNum 16781312 (4096 : Int)) =
      Finset.Ico 16781312 (16781312 + 4096) ∧
     NoSib (ipv4ToCidrsNum 16781312 (4096 : Int))) :=
  ⟨by norm_num, by norm_num,
    (ipv4_decomposition_minimal 16781312 4096 (by norm_num) (by norm_num)).2.1,
    (ipv4_decomposition_minimal 16781312 4096 (by norm_num) (by norm_num)).2.2.2.1⟩

/-! ## The aggregator (`PrefixAggregator.aggregate_prefixes`)

The aggregator groups the `(prefix, cc)` pairs by country code and then
by address family (`isinstance(prefix, IPv4Network)`), collapses each
bucket with `ipaddress.collapse_addresses`, and finally sorts all pairs
by `(str(type(prefix)), network_address)` — the class-name string of
`IPv4Network` sorts before `IPv6Network`.  `collapse_addresses` is a
Python standard-library routine whose source is not part of this
repository; `collapseBucket` below is modelled from the specification
(§4.3).  The `try/except` around the collapse call only fires for
mixed-family buckets, which the grouping by family makes impossible, so
it is not modelled. -/

/-- First-occurrence deduplication: the iteration order of a Python
dict whose keys are inserted by a scan of the list. -/
def firstDedupGo {α : Type} [DecidableEq α] : List α → List α → List α
  | _, [] => []
  | seen, a :: l =>
    if a ∈ seen then firstDedupGo seen l
    else a :: firstDedupGo (a :: seen) l

def firstDedup {α : Type} [DecidableEq α] (l : List α) : List α := firstDedupGo [] l

/-- The sort key of §4.3 step 1: `(network_address, prefix_length)`. -/
def pfxLe (p q : Pfx) : Prop :=
  p.addr < q.addr ∨ (p.addr = q.addr ∧ p.len ≤ q.len)

instance : DecidableRel pfxLe := fun p q => by
  unfold pfxLe; infer_instance

instance : IsTotal Pfx pfxLe :=
  ⟨fun p q => by unfold pfxLe; omega⟩

instance : IsTrans Pfx pfxLe :=
  ⟨fun p q r hpq hqr => by unfold pfxLe at *; omega⟩

/-- Decidable interval form of "every address of `p` is an address of
`q`", for blocks of the same family. -/
def SubBlock (p q : Pfx) : Prop :=
  p.w = q.w ∧ q.len ≤ p.len ∧ q.addr ≤ p.addr ∧ p.addr + p.size ≤ q.addr + q.size

instance (p q : Pfx) : Decidable (SubBlock p q) := by
  unfold SubBlock; infer_instance

/-- Modelled from the spec: step 2 of §4.3 — "Remove any prefix
contained in another in the bucket" (proper containment; the bucket has
already been deduplicated). -/
def removeContained (l : List Pfx) : List Pfx :=
  l.filter (fun p => !(l.any (fun q => decide (q ≠ p ∧ SubBlock p q))))

/-- Find the first block whose sibling is also present; return the
parent and the list with the pair removed. -/
def pickSib : List Pfx → Option (Pfx × List Pfx)
  | [] => none
  | p :: rest =>
    if 0 < p.len ∧ p.sibOf ∈ rest then some (p.parentOf, rest.erase p.sibOf)
    else
      match pickSib rest with
      | some (q, rest') => some (q, p :: rest')
      | none => none

/-- Modelled from the spec: step 3 of §4.3 — merge sibling halves into
their parent, repeating to a fixed point.  Every merge shortens the
list by one, so `l.length` iterations always reach the fixed point. -/
def collapseGo : Nat → List Pfx → List Pfx
  | 0, l => l
  | fuel + 1, l =>
    match pickSib l with
    | some (q, rest) => collapseGo fuel (q :: rest)
    | none => l

/-- Modelled from the spec: §4.3's per-bucket aggregation, standing in
for `ipaddress.collapse_addresses` (Python standard library, not
repository code): sort by `(network_address, prefix_length)`, drop
duplicates (the bucket is a set of networks), remove contained
prefixes, and merge sibling pairs to a fixed point. -/
def collapseBucket (l : List Pfx) : List Pfx :=
  let pruned := removeContained (firstDedup (List.insertionSort pfxLe l))
  collapseGo pruned.length pruned

/-- `isinstance(prefix, IPv4Network)`: the family tag used for the
inner grouping key. -/
def famKey (p : Pfx) : Bool := p.w == 32

def bucketOf (pairs : List (Pfx × String)) (cc : String) (v : Bool) : List Pfx :=
  (pairs.filter (fun pc => pc.2 = cc ∧ famKey pc.1 = v)).map Prod.fst

/-- Iteration order of the outer `groups` dict: country codes by first
appearance. -/
def ccOrder (pairs : List (Pfx × String)) : List String :=
  firstDedup (pairs.map Prod.snd)

/-- Iteration order of the inner per-country dict: families by first
appearance among that country's pairs. -/
def verOrder (pairs : List (Pfx × String)) (cc : String) : List Bool :=
  firstDedup ((pairs.filter (fun pc => pc.2 = cc)).map (fun pc => famKey pc.1))

/-- The final sort key `(str(type(prefix)), network_address)`:
`"<class 'ipaddress.IPv4Network'>"` precedes
`"<class 'ipaddress.IPv6Network'>"` lexicographically. -/
def aggLe (pc qc : Pfx × String) : Prop :=
  (if famKey pc.1 then 0 else 1) < (if famKey qc.1 then 0 else 1) ∨
  ((if famKey pc.1 then (0 : Nat) else 1) = (if famKey qc.1 then 0 else 1) ∧
    pc.1.addr ≤ qc.1.addr)

instance : DecidableRel aggLe := fun p q => by
  unfold aggLe; infer_instance

instance : IsTotal (Pfx × String) aggLe :=
  ⟨fun p q => by unfold aggLe; omega⟩

instance : IsTrans (Pfx × String) aggLe :=
  ⟨fun p q r hpq hqr => by unfold aggLe at *; omega⟩

/-- `PrefixAggregator.aggregate_prefixes`: group by country code, then
family, collapse each bucket, tag the collapsed prefixes with their
country code, and sort the concatenation.  (Python's `sort` is stable;
any stable sort computes the same list, here insertion sort.) -/
def aggregatePrefixes (pairs : List (Pfx × String)) : List (Pfx × String) :=
  let parts := (ccOrder pairs).flatMap (fun cc =>
    (verOrder pairs cc).flatMap (fun v =>
      (collapseBucket (bucketOf pairs cc v)).map (fun p => (p, cc))))
  List.insertionSort aggLe parts

theorem firstDedupGo_mem {α : Type} [DecidableEq α] {x : α} :
    ∀ (seen l : List α), x ∈ firstDedupGo seen l ↔ x ∈ l ∧ x ∉ seen := by
  intro seen l
  induction l generalizing seen with
  | nil => simp [firstDedupGo]
  | cons a l ih =>
    simp only [firstDedupGo]
    by_cases ha : a ∈ seen
    · rw [if_pos ha, ih]
      constructor
      · rintro ⟨h1, h2⟩
        exact ⟨by simp [h1], h2⟩
      · rintro ⟨h1, h2⟩
        rcases List.mem_cons.mp h1 with rfl | h1
        · exact absurd ha h2
        · exact ⟨h1, h2⟩
    · rw [if_neg ha]
      constructor
      · intro h
        rcases List.mem_cons.mp h with rfl | h
        · exact ⟨by simp, ha⟩
        · rw [ih] at h
          refine ⟨by simp [h.1], ?_⟩
          intro hx
          exact h.2 (by simp [hx])
      · rintro ⟨h1, h2⟩
        rcases List.mem_cons.mp h1 with rfl | h1
        · exact List.mem_cons_self _ _
        · by_cases hxa : x = a
          · subst hxa
            exact List.mem_cons_self _ _
          · refine List.mem_cons_of_mem _ ?_
            rw [ih]
            exact ⟨h1, by simp [h2, hxa]⟩

theorem firstDedup_mem {α : Type} [DecidableEq α] {x : α} {l : List α} :
    x ∈ firstDedup l ↔ x ∈ l := by
  unfold firstDedup
  rw [firstDedupGo_mem]
  simp

theorem firstDedupGo_nodup {α : Type} [DecidableEq α] :
    ∀ (seen l : List α), (firstDedupGo seen l).Nodup := by
  intro seen l
  induction l generalizing seen with
  | nil => exact List.nodup_nil
  | cons a l ih =>
    simp only [firstDedupGo]
    by_cases ha : a ∈ seen
    · rw [if_pos ha]
      exact ih seen
    · rw [if_neg ha]
      refine List.Nodup.cons ?_ (ih (a :: seen))
      intro hmem
      rw [firstDedupGo_mem] at hmem
      exact hmem.2 (by simp)

theorem firstDedup_nodup {α : Type} [DecidableEq α] (l : List α) :
    (firstDedup l).Nodup := firstDedupGo_nodup [] l

theorem subBlock_refl (p : Pfx) : SubBlock p p :=
  ⟨rfl, le_refl _, le_refl _, le_refl _⟩

theorem subBlock_trans {p q r : Pfx} (h1 : SubBlock p q) (h2 : SubBlock q r) :
    SubBlock p r := by
  obtain ⟨a1, a2, a3, a4⟩ := h1
  obtain ⟨b1, b2, b3, b4⟩ := h2
  exact ⟨a1.trans b1, by omega, by omega, by omega⟩

theorem subBlock_addrs {p q : Pfx} (h : SubBlock p q) : p.addrs ⊆ q.addrs := by
  intro x hx
  rw [Pfx.mem_addrs] at hx ⊢
  obtain ⟨-, -, h3, h4⟩ := h
  omega

theorem subBlock_of_addrs {p q : Pfx} (hp : p.valid) (hq : q.valid) (hw : p.w = q.w)
    (h : p.addrs ⊆ q.addrs) : SubBlock p q := by
  have h1 : p.addr ∈ q.addrs := h p.addr_mem_addrs
  have hsp := p.size_pos
  have h2 : p.addr + p.size - 1 ∈ q.addrs := by
    apply h
    rw [Pfx.mem_addrs]
    omega
  rw [Pfx.mem_addrs] at h1 h2
  have hsize : p.size ≤ q.size := by
    have hcard := Finset.card_le_card h
    rw [Pfx.addrs, Pfx.addrs, Nat.card_Ico, Nat.card_Ico] at hcard
    omega
  have hlen : q.len ≤ p.len := by
    have hmono := (Nat.pow_le_pow_iff_right (by omega : 1 < 2)).1 hsize
    have hpl := hp.1
    have hql := hq.1
    rw [hw] at hmono hpl
    omega
  exact ⟨hw, hlen, by omega, by omega⟩

theorem subBlock_antisymm {p q : Pfx} (hp : p.valid) (hq : q.valid)
    (h1 : SubBlock p q) (h2 : SubBlock q p) : p = q := by
  obtain ⟨a1, a2, a3, a4⟩ := h1
  obtain ⟨b1, b2, b3, b4⟩ := h2
  exact Pfx.ext_eq a1 (by omega) (by omega)

theorem removeContained_subset {l : List Pfx} {p : Pfx}
    (h : p ∈ removeContained l) : p ∈ l :=
  List.mem_of_mem_filter h

theorem mem_removeContained {l : List Pfx} {p : Pfx} :
    p ∈ removeContained l ↔ p ∈ l ∧ ∀ q ∈ l, q ≠ p → ¬ SubBlock p q := by
  unfold removeContained
  rw [List.mem_filter]
  constructor
  · rintro ⟨h1, h2⟩
    refine ⟨h1, ?_⟩
    intro q hq hne hsub
    rw [Bool.not_eq_true', List.any_eq_false] at h2
    have h3 := h2 q hq
    simp only [decide_eq_true_eq] at h3
    exact h3 ⟨hne, hsub⟩
  · rintro ⟨h1, h2⟩
    refine ⟨h1, ?_⟩
    rw [Bool.not_eq_true', List.any_eq_false]
    intro q hq
    simp only [decide_eq_true_eq]
    intro hcon
    exact h2 q hq hcon.1 hcon.2

/-- Every block of the bucket is covered by a surviving block: its
container of minimal prefix length is maximal and survives. -/
theorem removeContained_covers {l : List Pfx} (hval : ∀ b ∈ l, b.valid)
    {W : Nat} (hw : ∀ b ∈ l, b.w = W) {b : Pfx} (hb : b ∈ l) :
    ∃ q ∈ removeContained l, b.addrs ⊆ q.addrs := by
  have hne : l.filter (fun q => decide (SubBlock b q)) ≠ [] := by
    intro hnil
    have : b ∈ l.filter (fun q => decide (SubBlock b q)) := by
      rw [List.mem_filter]
      exact ⟨hb, by simp [subBlock_refl]⟩
    rw [hnil] at this
    cases this
  obtain ⟨q, hq⟩ : ∃ q, (l.filter (fun q => decide (SubBlock b q))).argmin Pfx.len = some q := by
    cases hh : (l.filter (fun q => decide (SubBlock b q))).argmin Pfx.len with
    | none => exact absurd (List.argmin_eq_none.mp hh) hne
    | some q => exact ⟨q, rfl⟩
  have hqmem := List.argmin_mem hq
  rw [List.mem_filter] at hqmem
  obtain ⟨hql, hqsub⟩ := hqmem
  rw [decide_eq_true_eq] at hqsub
  refine ⟨q, ?_, subBlock_addrs hqsub⟩
  rw [mem_removeContained]
  refine ⟨hql, ?_⟩
  intro r hr hne hsub
  have hbr : SubBlock b r := subBlock_trans hqsub hsub
  have hrmem : r ∈ l.filter (fun q => decide (SubBlock b q)) := by
    rw [List.mem_filter]
    exact ⟨hr, by simp [hbr]⟩
  have hlen : q.len ≤ r.len := List.le_of_mem_argmin hrmem hq
  have : q = r := by
    obtain ⟨a1, a2, a3, a4⟩ := hsub
    have hsz : q.size = r.size := by
      unfold Pfx.size
      rw [a1]
      congr 1
      omega
    apply Pfx.ext_eq a1 _ (by omega)
    omega
  exact hne this.symm

theorem removeContained_union {l : List Pfx} (hval : ∀ b ∈ l, b.valid)
    {W : Nat} (hw : ∀ b ∈ l, b.w = W) :
    listUnion (removeContained l) = listUnion l := by
  apply Finset.Subset.antisymm
  · intro x hx
    rw [mem_listUnion] at hx ⊢
    obtain ⟨b, hb, hxb⟩ := hx
    exact ⟨b, removeContained_subset hb, hxb⟩
  · intro x hx
    rw [mem_listUnion] at hx ⊢
    obtain ⟨b, hb, hxb⟩ := hx
    obtain ⟨q, hq, hsub⟩ := removeContained_covers hval hw hb
    exact ⟨q, hq, hsub hxb⟩

/-- After removing contained prefixes the bucket is an antichain:
distinct survivors are disjoint. -/
theorem removeContained_disjoint {l : List Pfx} (hval : ∀ b ∈ l, b.valid)
    {W : Nat} (hw : ∀ b ∈ l, b.w = W) {p q : Pfx}
    (hp : p ∈ removeContained l) (hq : q ∈ removeContained l) (hne : p ≠ q) :
    Disjoint p.addrs q.addrs := by
  rw [mem_removeContained] at hp hq
  rw [Finset.disjoint_left]
  intro x hxp hxq
  rcases Pfx.laminar (hval p hp.1) (hval q hq.1)
    (by rw [hw p hp.1, hw q hq.1]) hxp hxq with hsub | hsub
  · exact hp.2 q hq.1 (Ne.symm hne)
      (subBlock_of_addrs (hval p hp.1) (hval q hq.1) (by rw [hw p hp.1, hw q hq.1]) hsub)
  · exact hq.2 p hp.1 hne
      (subBlock_of_addrs (hval q hq.1) (hval p hp.1) (by rw [hw p hp.1, hw q hq.1]) hsub)

theorem Pfx.parent_size {p : Pfx} (hlen : 0 < p.len) (hw : p.len ≤ p.w) :
    p.parentOf.size = 2 * p.size := by
  show 2 ^ (p.w - (p.len - 1)) = 2 * 2 ^ (p.w - p.len)
  have h1 : p.w - (p.len - 1) = (p.w - p.len) + 1 := by omega
  rw [h1, pow_succ]
  ring

theorem Pfx.two_size_dvd_pow {p : Pfx} (hlen : 0 < p.len) (hw : p.len ≤ p.w) :
    2 * p.size ∣ 2 ^ p.w := by
  have h1 : 2 * p.size = 2 ^ (p.w - p.len + 1) := by
    unfold Pfx.size
    rw [pow_succ]
    ring
  rw [h1]
  exact pow_dvd_pow 2 (by omega)

/-- The parent of a valid block of positive length is valid. -/
theorem Pfx.parentOf_valid {p : Pfx} (hp : p.valid) (hlen : 0 < p.len) :
    p.parentOf.valid := by
  obtain ⟨h1, h2, h3⟩ := hp
  have hsz := Pfx.parent_size hlen h1
  have hdvd := Pfx.two_size_dvd_pow hlen h1
  have hspos := p.size_pos
  refine ⟨?_, ?_, ?_⟩
  · show p.len - 1 ≤ p.w
    omega
  · show (p.addr - p.addr % (2 * p.size)) + p.parentOf.size ≤ 2 ^ p.w
    rw [hsz]
    rcases Pfx.mod_two_size ⟨h1, h2, h3⟩ with hr | hr
    · rw [hr]
      -- p.addr is a multiple of 2*size strictly below 2^w, which is
      -- itself a multiple of 2*size
      have hd1 : 2 * p.size ∣ p.addr := by
        have := Nat.dvd_of_mod_eq_zero hr
        exact this
      obtain ⟨u, hu⟩ := hd1
      obtain ⟨v, hv⟩ := hdvd
      have huv : u < v := by
        have hlt : 2 * p.size * u < 2 * p.size * v := by
          rw [← hu, ← hv]
          omega
        exact lt_of_mul_lt_mul_left hlt (Nat.zero_le _)
      have : 2 * p.size * (u + 1) ≤ 2 * p.size * v := Nat.mul_le_mul_left _ (by omega)
      calc p.addr - 0 + 2 * p.size = 2 * p.size * (u + 1) := by rw [hu]; ring_nf; omega
      _ ≤ 2 * p.size * v := this
      _ = 2 ^ p.w := hv.symm
    · rw [hr]
      have hle : p.size ≤ p.addr := by
        have := Nat.mod_le p.addr (2 * p.size)
        omega
      omega
  · show (p.addr - p.addr % (2 * p.size)) % p.parentOf.size = 0
    rw [hsz]
    have hdm : p.addr - p.addr % (2 * p.size) = 2 * p.size * (p.addr / (2 * p.size)) := by
      have h := Nat.mod_add_div p.addr (2 * p.size)
      omega
    rw [hdm, Nat.mul_mod_right]

/-- The sibling of a valid block of positive length is valid. -/
theorem Pfx.sibOf_valid {p : Pfx} (hp : p.valid) (hlen : 0 < p.len) :
    p.sibOf.valid := by
  obtain ⟨h1, h2, h3⟩ := hp
  have hspos := p.size_pos
  have hdvd := Pfx.two_size_dvd_pow hlen h1
  have hsz : (2 : Nat) ^ (p.w - p.len) = p.size := rfl
  unfold Pfx.sibOf
  rcases Pfx.mod_two_size ⟨h1, h2, h3⟩ with hr | hr
  · rw [if_pos hr]
    refine ⟨h1, ?_, ?_⟩
    · show p.addr + p.size + 2 ^ (p.w - p.len) ≤ 2 ^ p.w
      obtain ⟨u, hu⟩ := Nat.dvd_of_mod_eq_zero hr
      obtain ⟨v, hv⟩ := hdvd
      have huv : u < v := by
        have hlt : 2 * p.size * u < 2 * p.size * v := by
          rw [← hu, ← hv]
          omega
        exact lt_of_mul_lt_mul_left hlt (Nat.zero_le _)
      have hmul : 2 * p.size * (u + 1) ≤ 2 * p.size * v := Nat.mul_le_mul_left _ (by omega)
      have hd : 2 * p.size * (u + 1) = 2 * p.size * u + 2 * p.size := by ring
      rw [hsz]
      omega
    · show (p.addr + p.size) % 2 ^ (p.w - p.len) = 0
      rw [hsz]
      apply Nat.mod_eq_zero_of_dvd
      exact Nat.dvd_add (Nat.dvd_of_mod_eq_zero h3) dvd_rfl
  · rw [if_neg (by omega)]
    have hle : p.size ≤ p.addr := by
      have := Nat.mod_le p.addr (2 * p.size)
      omega
    refine ⟨h1, ?_, ?_⟩
    · show p.addr - p.size + 2 ^ (p.w - p.len) ≤ 2 ^ p.w
      rw [hsz]
      omega
    · show (p.addr - p.size) % 2 ^ (p.w - p.len) = 0
      rw [hsz]
      apply Nat.mod_eq_zero_of_dvd
      obtain ⟨j, hj⟩ := Nat.dvd_of_mod_eq_zero h3
      cases j with
      | zero =>
        exfalso
        rw [Nat.mul_zero] at hj
        rw [hj] at hr
        rw [Nat.zero_mod] at hr
        omega
      | succ j' =>
        refine ⟨j', ?_⟩
        have hexp : p.size * (j' + 1) = p.size * j' + p.size := by ring
        rw [hj, hexp]
        omega

/-- The parent block is exactly the union of a block and its sibling. -/
theorem Pfx.parent_addrs {p : Pfx} (hp : p.valid) (hlen : 0 < p.len) :
    p.parentOf.addrs = p.addrs ∪ p.sibOf.addrs := by
  have hspos := p.size_pos
  have hsz := Pfx.parent_size hlen hp.1
  have hbig : p.addrs ∪ p.sibOf.addrs =
      Finset.Ico (p.addr - p.addr % (2 * p.size))
        (p.addr - p.addr % (2 * p.size) + 2 * p.size) := by
    unfold Pfx.sibOf
    rcases Pfx.mod_two_size hp with hr | hr
    · rw [if_pos hr, hr]
      have hsib : (⟨p.w, p.addr + p.size, p.len⟩ : Pfx).addrs =
          Finset.Ico (p.addr + p.size) (p.addr + p.size + p.size) := rfl
      rw [hsib]
      unfold Pfx.addrs
      rw [Finset.Ico_union_Ico_eq_Ico (by omega) (by omega)]
      congr 1 <;> omega
    · rw [if_neg (by omega)]
      have hle : p.size ≤ p.addr := by
        have := Nat.mod_le p.addr (2 * p.size)
        omega
      have hs2 : (2 : Nat) ^ (p.w - p.len) = p.size := rfl
      have hsib : (⟨p.w, p.addr - p.size, p.len⟩ : Pfx).addrs =
          Finset.Ico (p.addr - p.size) p.addr := by
        unfold Pfx.addrs
        congr 1
        show p.addr - p.size + 2 ^ (p.w - p.len) = p.addr
        rw [hs2]
        omega
      rw [hsib]
      unfold Pfx.addrs
      rw [Finset.union_comm]
      rw [Finset.Ico_union_Ico_eq_Ico (by omega) (by omega)]
      congr 1 <;> omega
  rw [hbig]
  unfold Pfx.addrs
  congr 1
  rw [hsz]
  rfl

theorem sib_symm {p q : Pfx} (h : Sib p q) : Sib q p := by
  obtain ⟨h1, h2, h3, h4, h5⟩ := h
  exact ⟨h1.symm, h2.symm, by omega, h4.symm, h5.symm⟩

/-- The unique sibling: if `Sib p q` holds between valid blocks then
`q` is computed by `Pfx.sibOf p`. -/
theorem sib_eq_sibOf {p q : Pfx} (hp : p.valid) (hq : q.valid) (h : Sib p q) :
    p.sibOf = q := by
  have hspos := p.size_pos
  have hsz : p.size = q.size := by
    unfold Pfx.size
    rw [h.1, h.2.1]
  rcases sib_cases hp hq h with ⟨ha, hup⟩ | ⟨ha, hup⟩
  · unfold Pfx.sibOf
    rw [if_pos ha]
    refine Pfx.ext_eq h.1 ?_ h.2.1
    show p.addr + p.size = q.addr
    omega
  · have hqpos := q.size_pos
    have hr : p.addr % (2 * p.size) = p.size := by
      obtain ⟨j, hj⟩ := Nat.dvd_of_mod_eq_zero ha
      rw [hsz, hup, hj, Nat.mul_add_mod]
      exact Nat.mod_eq_of_lt (by omega)
    unfold Pfx.sibOf
    rw [if_neg (by rw [hr]; omega)]
    refine Pfx.ext_eq h.1 ?_ h.2.1
    show p.addr - p.size = q.addr
    omega

theorem pickSib_some {l : List Pfx} {q : Pfx} {rest : List Pfx}
    (h : pickSib l = some (q, rest)) :
    ∃ p, 0 < p.len ∧ q = p.parentOf ∧ List.Perm l (p :: p.sibOf :: rest) := by
  induction l generalizing q rest with
  | nil => cases h
  | cons p0 l0 ih =>
    simp only [pickSib] at h
    by_cases hcond : 0 < p0.len ∧ p0.sibOf ∈ l0
    · rw [if_pos hcond] at h
      simp only [Option.some.injEq, Prod.mk.injEq] at h
      obtain ⟨hq, hrest⟩ := h
      refine ⟨p0, hcond.1, hq.symm, ?_⟩
      rw [← hrest]
      exact List.Perm.cons p0 (List.perm_cons_erase hcond.2)
    · rw [if_neg hcond] at h
      cases hrec : pickSib l0 with
      | none => rw [hrec] at h; cases h
      | some qr =>
        rw [hrec] at h
        obtain ⟨q', rest'⟩ := qr
        simp only [Option.some.injEq, Prod.mk.injEq] at h
        obtain ⟨hq, hrest⟩ := h
        obtain ⟨p, hp1, hp2, hp3⟩ := ih hrec
        refine ⟨p, hp1, by rw [← hq, hp2], ?_⟩
        rw [← hrest]
        have h1 : List.Perm (p0 :: l0) (p0 :: (p :: p.sibOf :: rest')) :=
          List.Perm.cons p0 hp3
        have h2 : List.Perm (p0 :: p :: p.sibOf :: rest')
            (p :: p0 :: p.sibOf :: rest') := List.Perm.swap p p0 _
        have h3 : List.Perm (p0 :: p.sibOf :: rest') (p.sibOf :: p0 :: rest') :=
          List.Perm.swap p.sibOf p0 _
        exact h1.trans (h2.trans (List.Perm.cons p h3))

theorem pickSib_none_nosib {l : List Pfx} (hval : ∀ b ∈ l, b.valid)
    (h : pickSib l = none) : NoSib l := by
  induction l with
  | nil => intro p hp; cases hp
  | cons p0 l0 ih =>
    simp only [pickSib] at h
    by_cases hcond : 0 < p0.len ∧ p0.sibOf ∈ l0
    · rw [if_pos hcond] at h
      cases h
    · rw [if_neg hcond] at h
      have hrec : pickSib l0 = none := by
        cases hrec : pickSib l0 with
        | none => rfl
        | some qr =>
          rw [hrec] at h
          obtain ⟨q', rest'⟩ := qr
          cases h
      have hno0 := ih (fun b hb => hval b (List.mem_cons_of_mem _ hb)) hrec
      intro a ha b hb hs
      rcases List.mem_cons.mp ha with ha1 | ha2
      · rcases List.mem_cons.mp hb with hb1 | hb2
        · subst ha1
          subst hb1
          exact hs.2.2.2.2 rfl
        · subst ha1
          apply hcond
          refine ⟨hs.2.2.1, ?_⟩
          rw [sib_eq_sibOf (hval a (by simp)) (hval b (by simp [hb2])) hs]
          exact hb2
      · rcases List.mem_cons.mp hb with hb1 | hb2
        · subst hb1
          apply hcond
          have hs' := sib_symm hs
          refine ⟨hs'.2.2.1, ?_⟩
          rw [sib_eq_sibOf (hval b (by simp)) (hval a (by simp [ha2])) hs']
          exact ha2
        · exact hno0 a ha2 b hb2 hs

theorem listUnion_cons (b : Pfx) (l : List Pfx) :
    listUnion (b :: l) = b.addrs ∪ listUnion l := rfl

theorem listUnion_perm {l l' : List Pfx} (h : List.Perm l l') :
    listUnion l = listUnion l' := by
  ext x
  rw [mem_listUnion, mem_listUnion]
  constructor
  · rintro ⟨b, hb, hx⟩
    exact ⟨b, h.mem_iff.1 hb, hx⟩
  · rintro ⟨b, hb, hx⟩
    exact ⟨b, h.mem_iff.2 hb, hx⟩

theorem collapseGo_spec (W : Nat) (U : Finset Nat) :
    ∀ (fuel : Nat) (l : List Pfx), l.length ≤ fuel →
    (∀ b ∈ l, b.valid) → (∀ b ∈ l, b.w = W) →
    l.Pairwise (fun a b => Disjoint a.addrs b.addrs) →
    listUnion l = U →
    (∀ b ∈ collapseGo fuel l, b.valid) ∧ (∀ b ∈ collapseGo fuel l, b.w = W) ∧
    (collapseGo fuel l).Pairwise (fun a b => Disjoint a.addrs b.addrs) ∧
    listUnion (collapseGo fuel l) = U ∧
    NoSib (collapseGo fuel l) := by
  intro fuel
  induction fuel with
  | zero =>
    intro l hlen hval hw hpw hU
    have hnil : l = [] := List.length_eq_zero.1 (by omega)
    subst hnil
    refine ⟨hval, hw, hpw, hU, ?_⟩
    intro p hp
    cases hp
  | succ f ih =>
    intro l hlen hval hw hpw hU
    cases hpick : pickSib l with
    | none =>
      simp only [collapseGo, hpick]
      exact ⟨hval, hw, hpw, hU, pickSib_none_nosib hval hpick⟩
    | some qr =>
      obtain ⟨q, rest⟩ := qr
      simp only [collapseGo, hpick]
      obtain ⟨p, hpos, hq, hperm⟩ := pickSib_some hpick
      have hval3 : ∀ b ∈ p :: p.sibOf :: rest, b.valid :=
        fun b hb => hval b (hperm.mem_iff.2 hb)
      have hw3 : ∀ b ∈ p :: p.sibOf :: rest, b.w = W :=
        fun b hb => hw b (hperm.mem_iff.2 hb)
      have hpw3 : (p :: p.sibOf :: rest).Pairwise
          (fun a b => Disjoint a.addrs b.addrs) :=
        (hperm.pairwise_iff (fun hab => hab.symm)).1 hpw
      have hpv : p.valid := hval3 p (by simp)
      have hqv : q.valid := by
        rw [hq]
        exact Pfx.parentOf_valid hpv hpos
      have hqw : q.w = W := by
        rw [hq]
        exact hw3 p (by simp)
      have hqaddrs : q.addrs = p.addrs ∪ p.sibOf.addrs := by
        rw [hq]
        exact Pfx.parent_addrs hpv hpos
      rw [List.pairwise_cons] at hpw3
      obtain ⟨hpdisj, hpw2⟩ := hpw3
      rw [List.pairwise_cons] at hpw2
      obtain ⟨hsibdisj, hpwrest⟩ := hpw2
      have hlen' : (q :: rest).length ≤ f := by
        have := hperm.length_eq
        simp only [List.length_cons] at this ⊢
        omega
      have hval' : ∀ b ∈ q :: rest, b.valid := by
        intro b hb
        rcases List.mem_cons.mp hb with rfl | hb
        · exact hqv
        · exact hval3 b (by simp [hb])
      have hw' : ∀ b ∈ q :: rest, b.w = W := by
        intro b hb
        rcases List.mem_cons.mp hb with rfl | hb
        · exact hqw
        · exact hw3 b (by simp [hb])
      have hpw' : (q :: rest).Pairwise (fun a b => Disjoint a.addrs b.addrs) := by
        rw [List.pairwise_cons]
        refine ⟨?_, hpwrest⟩
        intro r hr
        rw [hqaddrs, Finset.disjoint_union_left]
        exact ⟨hpdisj r (by simp [hr]), hsibdisj r hr⟩
      have hU' : listUnion (q :: rest) = U := by
        rw [listUnion_cons, hqaddrs, ← hU, listUnion_perm hperm,
          listUnion_cons, listUnion_cons]
        rw [Finset.union_assoc]
      exact ih (q :: rest) hlen' hval' hw' hpw' hU'

theorem listUnion_congr_mem {l l' : List Pfx} (h : ∀ x, x ∈ l ↔ x ∈ l') :
    listUnion l = listUnion l' := by
  ext x
  rw [mem_listUnion, mem_listUnion]
  constructor
  · rintro ⟨b, hb, hx⟩
    exact ⟨b, (h b).1 hb, hx⟩
  · rintro ⟨b, hb, hx⟩
    exact ⟨b, (h b).2 hb, hx⟩

/-- Everything §4.3 promises of one collapsed bucket: validity and
family are preserved, the survivors are pairwise disjoint with no
sibling pair, and the address coverage is exactly that of the input. -/
theorem collapseBucket_spec (W : Nat) (l : List Pfx)
    (hval : ∀ b ∈ l, b.valid) (hw : ∀ b ∈ l, b.w = W) :
    (∀ b ∈ collapseBucket l, b.valid) ∧ (∀ b ∈ collapseBucket l, b.w = W) ∧
    (collapseBucket l).Pairwise (fun a b => Disjoint a.addrs b.addrs) ∧
    listUnion (collapseBucket l) = listUnion l ∧
    NoSib (collapseBucket l) := by
  have hmemsort : ∀ x : Pfx, x ∈ List.insertionSort pfxLe l ↔ x ∈ l :=
    fun x => (List.perm_insertionSort pfxLe l).mem_iff
  have hmemdedup : ∀ x : Pfx, x ∈ firstDedup (List.insertionSort pfxLe l) ↔ x ∈ l :=
    fun x => firstDedup_mem.trans (hmemsort x)
  have hvald : ∀ b ∈ firstDedup (List.insertionSort pfxLe l), b.valid :=
    fun b hb => hval b ((hmemdedup b).1 hb)
  have hwd : ∀ b ∈ firstDedup (List.insertionSort pfxLe l), b.w = W :=
    fun b hb => hw b ((hmemdedup b).1 hb)
  have hvalp : ∀ b ∈ removeContained (firstDedup (List.insertionSort pfxLe l)), b.valid :=
    fun b hb => hvald b (removeContained_subset hb)
  have hwp : ∀ b ∈ removeContained (firstDedup (List.insertionSort pfxLe l)), b.w = W :=
    fun b hb => hwd b (removeContained_subset hb)
  have hndp : (removeContained (firstDedup (List.insertionSort pfxLe l))).Nodup :=
    (firstDedup_nodup _).filter _
  have hpwp : (removeContained (firstDedup (List.insertionSort pfxLe l))).Pairwise
      (fun a b => Disjoint a.addrs b.addrs) :=
    hndp.pairwise_of_forall_ne
      (fun a ha b hb hne => removeContained_disjoint hvald hwd ha hb hne)
  have hUd : listUnion (firstDedup (List.insertionSort pfxLe l)) = listUnion l :=
    listUnion_congr_mem hmemdedup
  have hUp : listUnion (removeContained (firstDedup (List.insertionSort pfxLe l))) =
      listUnion l := (removeContained_union hvald hwd).trans hUd
  exact collapseGo_spec W (listUnion l) _ _ (le_refl _) hvalp hwp hpwp hUp

/-- Flattening a list of mostly-empty pieces: if at most the piece at
`b` is nonempty, the flattening is that piece. -/
theorem flatMap_single {β γ : Type} [DecidableEq β] (l : List β) (g : β → List γ) (b : β)
    (hnd : l.Nodup) (hz : ∀ x ∈ l, x ≠ b → g x = []) :
    l.flatMap g = if b ∈ l then g b else [] := by
  induction l with
  | nil => simp
  | cons a l ih =>
    rw [List.flatMap_cons]
    by_cases hab : a = b
    · subst hab
      have hnotin : a ∉ l := (List.nodup_cons.mp hnd).1
      have hrest : l.flatMap g = [] := by
        rw [ih (List.nodup_cons.mp hnd).2
          (fun x hx hxb => hz x (List.mem_cons_of_mem _ hx) hxb)]
        simp [hnotin]
      rw [hrest]
      simp
    · have hga : g a = [] := hz a (by simp) hab
      rw [hga]
      rw [ih (List.nodup_cons.mp hnd).2
        (fun x hx hxb => hz x (List.mem_cons_of_mem _ hx) hxb)]
      simp [Ne.symm hab, hab]

theorem mem_bucketOf {pairs : List (Pfx × String)} {cc : String} {v : Bool} {b : Pfx} :
    b ∈ bucketOf pairs cc v ↔ ∃ s, (b, s) ∈ pairs ∧ s = cc ∧ famKey b = v := by
  unfold bucketOf
  constructor
  · intro hb
    obtain ⟨pc, hpc, hfst⟩ := List.mem_map.mp hb
    obtain ⟨hmem, hP⟩ := List.mem_filter.mp hpc
    simp only [decide_eq_true_eq] at hP
    refine ⟨pc.2, ?_, hP.1, hfst ▸ hP.2⟩
    rw [← hfst]
    simpa using hmem
  · rintro ⟨s, hmem, hs, hfam⟩
    exact List.mem_map.mpr ⟨(b, s), List.mem_filter.mpr ⟨hmem, by
      simp only [decide_eq_true_eq]; exact ⟨hs, hfam⟩⟩, rfl⟩

theorem bucketOf_props {pairs : List (Pfx × String)} {cc : String} {v : Bool}
    (hv : ∀ pc ∈ pairs, pc.1.valid ∧ (pc.1.w = 32 ∨ pc.1.w = 128)) :
    (∀ b ∈ bucketOf pairs cc v, b.valid) ∧
    (∀ b ∈ bucketOf pairs cc v, b.w = if v then 32 else 128) := by
  constructor
  · intro b hb
    obtain ⟨s, hmem, -, -⟩ := mem_bucketOf.mp hb
    exact (hv (b, s) hmem).1
  · intro b hb
    obtain ⟨s, hmem, -, hfam⟩ := mem_bucketOf.mp hb
    have hw : b.w = 32 ∨ b.w = 128 := (hv (b, s) hmem).2
    unfold famKey at hfam
    cases v with
    | true => simp only [beq_iff_eq] at hfam; simpa using hfam
    | false =>
      simp only [if_neg Bool.false_ne_true]
      simp only [beq_eq_false_iff_ne, ne_eq] at hfam
      omega

theorem bucketOf_nonempty {pairs : List (Pfx × String)} {cc : String} {v : Bool}
    (h : bucketOf pairs cc v ≠ []) : cc ∈ ccOrder pairs ∧ v ∈ verOrder pairs cc := by
  obtain ⟨b, hb⟩ := List.exists_mem_of_ne_nil _ h
  obtain ⟨s, hmem, hs, hfam⟩ := mem_bucketOf.mp hb
  subst hs
  constructor
  · exact firstDedup_mem.mpr (List.mem_map.mpr ⟨(b, s), hmem, rfl⟩)
  · refine firstDedup_mem.mpr (List.mem_map.mpr ⟨(b, s), ?_, hfam⟩)
    exact List.mem_filter.mpr ⟨hmem, by simp⟩

theorem collapseBucket_nil : collapseBucket [] = [] := rfl

theorem piece_filter_eq (pairs : List (Pfx × String)) (cc : String) (v : Bool)
    (cc' : String) (v' : Bool)
    (hv : ∀ pc ∈ pairs, pc.1.valid ∧ (pc.1.w = 32 ∨ pc.1.w = 128)) :
    ((collapseBucket (bucketOf pairs cc' v')).map (fun p => (p, cc'))).filter
        (fun pc => pc.2 = cc ∧ famKey pc.1 = v) =
      if cc' = cc ∧ v' = v then
        (collapseBucket (bucketOf pairs cc' v')).map (fun p => (p, cc')) else [] := by
  have hb := @bucketOf_props pairs cc' v' hv
  have hfam : ∀ q ∈ collapseBucket (bucketOf pairs cc' v'), famKey q = v' := by
    intro q hq
    have hwq := (collapseBucket_spec _ _ hb.1 hb.2).2.1 q hq
    unfold famKey
    cases v' with
    | true => simp only [if_pos rfl] at hwq; simp [hwq]
    | false =>
      simp only [if_neg Bool.false_ne_true] at hwq
      simp [hwq]
  rw [List.filter_map]
  by_cases hcv : cc' = cc ∧ v' = v
  · rw [if_pos hcv]
    have heq : (collapseBucket (bucketOf pairs cc' v')).filter
        ((fun pc : Pfx × String => decide (pc.2 = cc ∧ famKey pc.1 = v)) ∘
          (fun p => (p, cc'))) = collapseBucket (bucketOf pairs cc' v') := by
      rw [List.filter_eq_self]
      intro q hq
      simp only [Function.comp_apply, decide_eq_true_eq]
      exact ⟨hcv.1, hcv.2 ▸ hfam q hq⟩
    rw [heq]
  · rw [if_neg hcv]
    have heq : (collapseBucket (bucketOf pairs cc' v')).filter
        ((fun pc : Pfx × String => decide (pc.2 = cc ∧ famKey pc.1 = v)) ∘
          (fun p => (p, cc'))) = [] := by
      rw [List.filter_eq_nil_iff]
      intro q hq
      simp only [Function.comp_apply, decide_eq_true_eq, not_and]
      intro h1 h2
      exact hcv ⟨h1, by rw [← h2, hfam q hq]⟩
    rw [heq]
    simp

theorem aggregate_filter_eq (pairs : List (Pfx × String)) (cc : String) (v : Bool)
    (hv : ∀ pc ∈ pairs, pc.1.valid ∧ (pc.1.w = 32 ∨ pc.1.w = 128)) :
    ((((ccOrder pairs).flatMap (fun cc' =>
        (verOrder pairs cc').flatMap (fun v' =>
          (collapseBucket (bucketOf pairs cc' v')).map (fun p => (p, cc'))))).filter
        (fun pc => pc.2 = cc ∧ famKey pc.1 = v)).map Prod.fst) =
      collapseBucket (bucketOf pairs cc v) := by
  simp only [List.filter_flatMap]
  have h1 : ∀ cc' v', ((collapseBucket (bucketOf pairs cc' v')).map
      (fun p => (p, cc'))).filter (fun pc => decide (pc.2 = cc ∧ famKey pc.1 = v)) =
      if cc' = cc ∧ v' = v then
        (collapseBucket (bucketOf pairs cc' v')).map (fun p => (p, cc')) else [] :=
    fun cc' v' => piece_filter_eq pairs cc v cc' v' hv
  simp only [h1]
  have h2 : ∀ cc', (verOrder pairs cc').flatMap (fun v' =>
      if cc' = cc ∧ v' = v then
        (collapseBucket (bucketOf pairs cc' v')).map (fun p => (p, cc')) else []) =
      if v ∈ verOrder pairs cc' then
        (if cc' = cc then
          (collapseBucket (bucketOf pairs cc' v)).map (fun p => (p, cc')) else [])
      else [] := by
    intro cc'
    have hndv : (verOrder pairs cc').Nodup := firstDedup_nodup _
    have hz : ∀ v' ∈ verOrder pairs cc', v' ≠ v →
        (if cc' = cc ∧ v' = v then
          (collapseBucket (bucketOf pairs cc' v')).map (fun p => (p, cc')) else []) = [] :=
      fun v' _ hvne => if_neg (fun hc => hvne hc.2)
    rw [flatMap_single _ _ v hndv hz]
    simp only [eq_self_iff_true, and_true]
  simp only [h2]
  have h3 : ∀ cc' ∈ ccOrder pairs, cc' ≠ cc →
      (if v ∈ verOrder pairs cc' then
        (if cc' = cc then
          (collapseBucket (bucketOf pairs cc' v)).map (fun p => (p, cc')) else [])
      else []) = [] := by
    intro cc' _ hne
    rw [if_neg hne]
    exact ite_self []
  have hndcc : (ccOrder pairs).Nodup := firstDedup_nodup _
  rw [flatMap_single _ _ cc hndcc h3]
  by_cases hcc : cc ∈ ccOrder pairs
  · rw [if_pos hcc]
    by_cases hvv : v ∈ verOrder pairs cc
    · rw [if_pos hvv, if_pos rfl, List.map_map]
      rw [show (Prod.fst ∘ fun p : Pfx => (p, cc)) = id from rfl, List.map_id]
    · rw [if_neg hvv]
      have hnil : bucketOf pairs cc v = [] := by
        by_contra h
        exact hvv (bucketOf_nonempty h).2
      rw [hnil, collapseBucket_nil]
      rfl
  · rw [if_neg hcc]
    have hnil : bucketOf pairs cc v = [] := by
      by_contra h
      exact hcc (bucketOf_nonempty h).1
    rw [hnil, collapseBucket_nil]
    rfl

theorem aggregate_filter_perm (pairs : List (Pfx × String)) (cc : String) (v : Bool)
    (hv : ∀ pc ∈ pairs, pc.1.valid ∧ (pc.1.w = 32 ∨ pc.1.w = 128)) :
    List.Perm (((aggregatePrefixes pairs).filter
        (fun pc => pc.2 = cc ∧ famKey pc.1 = v)).map Prod.fst)
      (collapseBucket (bucketOf pairs cc v)) := by
  have hperm : List.Perm ((aggregatePrefixes pairs).filter
      (fun pc => pc.2 = cc ∧ famKey pc.1 = v))
      (((ccOrder pairs).flatMap (fun cc' =>
        (verOrder pairs cc').flatMap (fun v' =>
          (collapseBucket (bucketOf pairs cc' v')).map (fun p => (p, cc'))))).filter
        (fun pc => pc.2 = cc ∧ famKey pc.1 = v)) := by
    unfold aggregatePrefixes
    exact (List.perm_insertionSort aggLe _).filter _
  have := hperm.map Prod.fst
  rwa [aggregate_filter_eq pairs cc v hv] at this

/-- The prefixes the aggregator's output assigns to one
`(country_code, family)` bucket. -/
def aggBucketOut (pairs : List (Pfx × String)) (cc : String) (v : Bool) : List Pfx :=
  ((aggregatePrefixes pairs).filter (fun pc => pc.2 = cc ∧ famKey pc.1 = v)).map Prod.fst

/-- C4: for every input list of (prefix, country code) pairs of valid
IPv4 (32-bit) or IPv6 (128-bit) blocks, within each (country code,
family) bucket of the aggregator's output every two prefixes are
disjoint, no two are mergeable siblings, the union of addresses equals
the union of that bucket's input prefixes, and the output is the
canonically minimal such set: any family of valid same-width blocks
covering the same addresses has at least as many blocks, with equality
only for the output set itself. -/
theorem aggregator_bucket_canonical (pairs : List (Pfx × String)) (cc : String) (v : Bool)
    (hv : ∀ pc ∈ pairs, pc.1.valid ∧ (pc.1.w = 32 ∨ pc.1.w = 128)) :
    (aggBucketOut pairs cc v).Pairwise (fun a b => Disjoint a.addrs b.addrs) ∧
    NoSib (aggBucketOut pairs cc v) ∧
    listUnion (aggBucketOut pairs cc v) = listUnion (bucketOf pairs cc v) ∧
    (∀ C : Finset Pfx, (∀ b ∈ C, b.valid ∧ b.w = (if v then 32 else 128)) →
      C.biUnion Pfx.addrs = listUnion (bucketOf pairs cc v) →
      (aggBucketOut pairs cc v).length ≤ C.card ∧
      (C.card = (aggBucketOut pairs cc v).length →
        C = (aggBucketOut pairs cc v).toFinset)) := by
  have hb := @bucketOf_props pairs cc v hv
  have hspec := collapseBucket_spec (if v then 32 else 128) (bucketOf pairs cc v) hb.1 hb.2
  have hperm : List.Perm (aggBucketOut pairs cc v) (collapseBucket (bucketOf pairs cc v)) :=
    aggregate_filter_perm pairs cc v hv
  refine ⟨(hperm.pairwise_iff (fun hab => hab.symm)).mpr hspec.2.2.1, ?_, ?_, ?_⟩
  · intro p hp q hq
    exact hspec.2.2.2.2 p (hperm.mem_iff.mp hp) q (hperm.mem_iff.mp hq)
  · exact (listUnion_perm hperm).trans hspec.2.2.2.1
  · intro C hC hCU
    have hmin := cover_minimal (if v then 32 else 128) (collapseBucket (bucketOf pairs cc v))
      hspec.1 hspec.2.1 hspec.2.2.1 hspec.2.2.2.2 C
      (fun b hbC => (hC b hbC).1) (fun b hbC => (hC b hbC).2)
      (hCU.trans hspec.2.2.2.1.symm)
    have hlen : (aggBucketOut pairs cc v).length =
        (collapseBucket (bucketOf pairs cc v)).length := hperm.length_eq
    have htf : (aggBucketOut pairs cc v).toFinset =
        (collapseBucket (bucketOf pairs cc v)).toFinset := by
      ext x
      simp [hperm.mem_iff]
    constructor
    · rw [hlen]
      exact hmin.1
    · intro hcard
      rw [htf]
      exact hmin.2 (by rw [hcard, hlen])

/-- Concrete instance of C4: two sibling /24 blocks for one country
collapse; in particular the bucket's output has no sibling pair. -/
theorem aggregator_bucket_canonical_witness :
    (∀ pc ∈ [((⟨32, 0, 24⟩ : Pfx), "US"), ((⟨32, 256, 24⟩ : Pfx), "US")],
      pc.1.valid ∧ (pc.1.w = 32 ∨ pc.1.w = 128)) ∧
    NoSib (aggBucketOut [((⟨32, 0, 24⟩ : Pfx), "US"), ((⟨32, 256, 24⟩ : Pfx), "US")]
      "US" true) :=
  ⟨by decide, (aggregator_bucket_canonical _ "US" true (by decide)).2.1⟩

/-! ## The reconciler of `parser.py` (`deduplicate_entries`) -/

/-- Python's lexicographic string order (`s1 <= s2` on code points) on
the underlying character lists. -/
def lexLeB : List Char → List Char → Bool
  | [], _ => true
  | _ :: _, [] => false
  | a :: as, b :: bs =>
    if a.toNat < b.toNat then true
    else if b.toNat < a.toNat then false
    else lexLeB as bs

theorem lexLeB_refl : ∀ l : List Char, lexLeB l l = true := by
  intro l
  induction l with
  | nil => rfl
  | cons a l ih => simp [lexLeB, ih]

theorem lexLeB_total : ∀ a b : List Char, lexLeB a b = true ∨ lexLeB b a = true := by
  intro a
  induction a with
  | nil => intro b; left; rfl
  | cons x xs ih =>
    intro b
    cases b with
    | nil => right; rfl
    | cons y ys =>
      simp only [lexLeB]
      rcases Nat.lt_trichotomy x.toNat y.toNat with h | h | h
      · left; simp [h]
      · have h1 : ¬ x.toNat < y.toNat := by omega
        have h2 : ¬ y.toNat < x.toNat := by omega
        simp [h1, h2]
        exact ih ys
      · right; simp [h]

theorem lexLeB_trans : ∀ a b c : List Char,
    lexLeB a b = true → lexLeB b c = true → lexLeB a c = true := by
  intro a
  induction a with
  | nil => intro b c _ _; rfl
  | cons x xs ih =>
    intro b c hab hbc
    cases b with
    | nil => simp [lexLeB] at hab
    | cons y ys =>
      cases c with
      | nil => simp [lexLeB] at hbc
      | cons z zs =>
        simp only [lexLeB] at hab hbc ⊢
        by_cases hxy : x.toNat < y.toNat
        · by_cases hyz : y.toNat < z.toNat
          · simp [show x.toNat < z.toNat by omega]
          · by_cases hzy : z.toNat < y.toNat
            · simp [hyz, hzy] at hbc
            · have : y.toNat = z.toNat := by omega
              simp [show x.toNat < z.toNat by omega]
        · by_cases hyx : y.toNat < x.toNat
          · simp [hxy, hyx] at hab
          · have hxyeq : x.toNat = y.toNat := by omega
            by_cases hyz : y.toNat < z.toNat
            · simp [show x.toNat < z.toNat by omega]
            · by_cases hzy : z.toNat < y.toNat
              · simp [hyz, hzy] at hbc
              · have hyzeq : y.toNat = z.toNat := by omega
                have h1 : ¬ x.toNat < z.toNat := by omega
                have h2 : ¬ z.toNat < x.toNat := by omega
                simp [hxy, hyx] at hab
                simp [hyz, hzy] at hbc
                simp [h1, h2]
                exact ih ys zs hab hbc

/-- One parsed RIR entry (the `RIREntry` namedtuple), with the date
encoded as `year*10000 + month*100 + day`. -/
structure Entry where
  registry : String
  cc : String
  typ : String
  start : String
  value : String
  date : Nat
  status : String
  pfx : Pfx
deriving DecidableEq, Repr

/-- One conflict record of `deduplicate_entries`. -/
structure Conflict where
  pfx : Pfx
  entries : List (String × String × Nat)
  chosen : String × String × Nat
deriving DecidableEq, Repr

/-- Python's ascending order on the sort key `(x.date, x.registry)`. -/
def keyLe (x y : Entry) : Prop :=
  x.date < y.date ∨ (x.date = y.date ∧ lexLeB x.registry.data y.registry.data = true)

/-- The comparison `sorted(..., key=..., reverse=True)` effectively
sorts by: `x` precedes `y` when the key of `x` is at least the key of
`y` (stable on ties). -/
def revLe (x y : Entry) : Prop := keyLe y x

instance : DecidableRel keyLe := fun x y => by
  unfold keyLe; infer_instance

instance : DecidableRel revLe := fun x y => by
  unfold revLe keyLe; infer_instance

theorem keyLe_refl (x : Entry) : keyLe x x :=
  Or.inr ⟨rfl, lexLeB_refl _⟩

instance : IsTotal Entry revLe :=
  ⟨fun x y => by
    unfold revLe keyLe
    rcases Nat.lt_trichotomy x.date y.date with h | h | h
    · right; left; exact h
    · rcases lexLeB_total x.registry.data y.registry.data with h2 | h2
      · right; right; exact ⟨h, h2⟩
      · left; right; exact ⟨h.symm, h2⟩
    · left; left; exact h⟩

instance : IsTrans Entry revLe :=
  ⟨fun x y z hxy hyz => by
    unfold revLe keyLe at *
    rcases hxy with h1 | ⟨h1, h1'⟩ <;> rcases hyz with h2 | ⟨h2, h2'⟩
    · left; omega
    · left; omega
    · left; omega
    · right; exact ⟨by omega, lexLeB_trans _ _ _ h2' h1'⟩⟩

/-- `prefix_groups`: the dict's keys in first-appearance order. -/
def groupKeys (entries : List Entry) : List Pfx := firstDedup (entries.map Entry.pfx)

/-- The group of entries sharing the exact prefix `p`. -/
def groupOf (entries : List Entry) (p : Pfx) : List Entry :=
  entries.filter (fun e => e.pfx = p)

/-- The entry `deduplicate_entries` keeps for one group: the sole
member, or the head of the stable `reverse=True` sort. -/
def chooseGroup (g : List Entry) : Option Entry :=
  if g.length = 1 then g.head? else (List.insertionSort revLe g).head?

/-- The conflict record for one group, when the group has at least two
members and at least two distinct country codes. -/
def conflictOf (p : Pfx) (g : List Entry) : Option Conflict :=
  if 1 < g.length ∧ 1 < (firstDedup (g.map Entry.cc)).length then
    match (List.insertionSort revLe g).head? with
    | some ch => some ⟨p, g.map (fun e => (e.registry, e.cc, e.date)),
        (ch.registry, ch.cc, ch.date)⟩
    | none => none
  else none

/-- `deduplicate_entries`: one kept entry per distinct prefix, plus the
conflict list. -/
def deduplicateEntries (entries : List Entry) : List Entry × List Conflict :=
  ((groupKeys entries).filterMap (fun p => chooseGroup (groupOf entries p)),
   (groupKeys entries).filterMap (fun p => conflictOf p (groupOf entries p)))

/-- Modelled from the spec: §4.2's tie-break order as written, namely
descending `(date, registry)` with the registry compared
reverse-lexicographically, so that a date tie is won by the
lexicographically first registry name. -/
def specKeyGe (x y : Entry) : Prop :=
  y.date < x.date ∨ (y.date = x.date ∧ lexLeB x.registry.data y.registry.data = true)

instance : DecidableRel specKeyGe := fun x y => by
  unfold specKeyGe; infer_instance

/-- Modelled from the spec: the entry §4.2's words choose from a group. -/
def specChoose (g : List Entry) : Option Entry :=
  (List.insertionSort specKeyGe g).head?

theorem conflictOf_some {p : Pfx} {g : List Entry} {c : Conflict}
    (h : conflictOf p g = some c) :
    c.pfx = p ∧ 1 < g.length ∧ 1 < (firstDedup (g.map Entry.cc)).length := by
  unfold conflictOf at h
  by_cases hcond : 1 < g.length ∧ 1 < (firstDedup (g.map Entry.cc)).length
  · rw [if_pos hcond] at h
    cases hh : (List.insertionSort revLe g).head? with
    | none => rw [hh] at h; simp at h
    | some ch =>
      rw [hh] at h
      simp only [Option.some.injEq] at h
      exact ⟨by rw [← h], hcond⟩
  · rw [if_neg hcond] at h
    simp at h

/-- C3 (amended): the reconciler groups entries by exact prefix; for
each group it keeps exactly one entry, a member of the group maximal
under ascending `(date, registry)` with the registry compared in PLAIN
lexicographic order — so a date tie is won by the lexicographically
LAST registry name, not the first as the spec's reverse-lexicographic
wording says — and it appends a conflict record listing every
`(registry, cc, date)` plus the chosen triple if and only if the group
has more than one entry and at least two distinct country codes. -/
theorem reconciler_tiebreak (entries : List Entry) (p : Pfx)
    (hp : p ∈ groupKeys entries) :
    ∃ ch, chooseGroup (groupOf entries p) = some ch ∧
      ch ∈ groupOf entries p ∧
      (∀ e ∈ groupOf entries p, keyLe e ch) ∧
      ch ∈ (deduplicateEntries entries).1 ∧
      ((1 < (groupOf entries p).length ∧
          1 < (firstDedup ((groupOf entries p).map Entry.cc)).length) →
        (⟨p, (groupOf entries p).map (fun e => (e.registry, e.cc, e.date)),
          (ch.registry, ch.cc, ch.date)⟩ : Conflict) ∈ (deduplicateEntries entries).2) ∧
      (¬(1 < (groupOf entries p).length ∧
          1 < (firstDedup ((groupOf entries p).map Entry.cc)).length) →
        ∀ c ∈ (deduplicateEntries entries).2, c.pfx ≠ p) := by
  have hne : groupOf entries p ≠ [] := by
    obtain ⟨e, he, hep⟩ := List.mem_map.mp (firstDedup_mem.mp hp)
    intro hnil
    have hmem : e ∈ groupOf entries p :=
      List.mem_filter.mpr ⟨he, by simp [hep]⟩
    rw [hnil] at hmem
    exact absurd hmem (List.not_mem_nil e)
  have hsort : List.Sorted revLe (List.insertionSort revLe (groupOf entries p)) :=
    List.sorted_insertionSort revLe (groupOf entries p)
  have hperm := List.perm_insertionSort revLe (groupOf entries p)
  have hsne : List.insertionSort revLe (groupOf entries p) ≠ [] := by
    intro h
    exact hne ((h ▸ hperm).symm.eq_nil)
  obtain ⟨ch, tl, hcons⟩ := List.exists_cons_of_ne_nil hsne
  have hchmax : ∀ e ∈ groupOf entries p, keyLe e ch := by
    intro e he
    have hmem : e ∈ List.insertionSort revLe (groupOf entries p) := hperm.mem_iff.mpr he
    rw [hcons] at hmem
    rcases List.mem_cons.mp hmem with h | h
    · subst h; exact keyLe_refl _
    · exact (List.sorted_cons.mp (hcons ▸ hsort)).1 e h
  have hchmem : ch ∈ groupOf entries p :=
    hperm.mem_iff.mp (hcons ▸ List.mem_cons_self ch tl)
  have hchoose : chooseGroup (groupOf entries p) = some ch := by
    unfold chooseGroup
    by_cases hlen : (groupOf entries p).length = 1
    · rw [if_pos hlen]
      obtain ⟨e, hge⟩ := List.length_eq_one.mp hlen
      rw [hge] at hcons ⊢
      simp only [List.insertionSort, List.orderedInsert] at hcons
      rw [(List.cons.injEq _ _ _ _).mp hcons |>.1]
      rfl
    · rw [if_neg hlen, hcons]
      rfl
  refine ⟨ch, hchoose, hchmem, hchmax, ?_, ?_, ?_⟩
  · exact List.mem_filterMap.mpr ⟨p, hp, hchoose⟩
  · intro hcond
    refine List.mem_filterMap.mpr ⟨p, hp, ?_⟩
    unfold conflictOf
    rw [if_pos hcond, hcons]
    rfl
  · intro hcond c hc hcp
    obtain ⟨p', hp', hcf⟩ := List.mem_filterMap.mp hc
    obtain ⟨hpp, hgt⟩ := conflictOf_some hcf
    rw [hcp] at hpp
    rw [← hpp] at hgt
    exact hcond hgt

/-- The arin entry of the C3 scenario: date tie at 2020-01-01. -/
def e1ex : Entry :=
  ⟨"arin", "US", "ipv4", "1.0.0.0", "256", 20200101, "allocated", ⟨32, 16777216, 24⟩⟩

/-- The ripe entry of the C3 scenario: same prefix and date. -/
def e2ex : Entry :=
  ⟨"ripe", "GB", "ipv4", "1.0.0.0", "256", 20200101, "allocated", ⟨32, 16777216, 24⟩⟩

/-- C3 counterexample: on a date tie, §4.2's reverse-lexicographic
wording picks the arin entry, but `deduplicate_entries` keeps the ripe
entry — Python's `reverse=True` turns plain lexicographic order around,
so the lexicographically last registry wins, and here the two entries
carry different country codes. -/
theorem reconciler_tiebreak_counterexample :
    specChoose [e1ex, e2ex] = some e1ex ∧
    (deduplicateEntries [e1ex, e2ex]).1 = [e2ex] ∧
    e1ex.date = e2ex.date ∧ e1ex.cc ≠ e2ex.cc := by decide

/-- Concrete instance of the amended C3 theorem on the tied scenario. -/
theorem reconciler_tiebreak_witness :
    (⟨32, 16777216, 24⟩ : Pfx) ∈ groupKeys [e1ex, e2ex] ∧
    (∃ ch, chooseGroup (groupOf [e1ex, e2ex] ⟨32, 16777216, 24⟩) = some ch ∧
      ch ∈ groupOf [e1ex, e2ex] ⟨32, 16777216, 24⟩ ∧
      (∀ e ∈ groupOf [e1ex, e2ex] ⟨32, 16777216, 24⟩, keyLe e ch) ∧
      ch ∈ (deduplicateEntries [e1ex, e2ex]).1 ∧
      ((1 < (groupOf [e1ex, e2ex] (⟨32, 16777216, 24⟩ : Pfx)).length ∧
          1 < (firstDedup ((groupOf [e1ex, e2ex]
            (⟨32, 16777216, 24⟩ : Pfx)).map Entry.cc)).length) →
        (⟨⟨32, 16777216, 24⟩, (groupOf [e1ex, e2ex]
            (⟨32, 16777216, 24⟩ : Pfx)).map (fun e => (e.registry, e.cc, e.date)),
          (ch.registry, ch.cc, ch.date)⟩ : Conflict) ∈
            (deduplicateEntries [e1ex, e2ex]).2) ∧
      (¬(1 < (groupOf [e1ex, e2ex] (⟨32, 16777216, 24⟩ : Pfx)).length ∧
          1 < (firstDedup ((groupOf [e1ex, e2ex]
            (⟨32, 16777216, 24⟩ : Pfx)).map Entry.cc)).length) →
        ∀ c ∈ (deduplicateEntries [e1ex, e2ex]).2, c.pfx ≠ ⟨32, 16777216, 24⟩)) :=
  ⟨by decide, reconciler_tiebreak [e1ex, e2ex] ⟨32, 16777216, 24⟩ (by decide)⟩

/-! ## The line parser of `parser.py` (`_parse_line`) -/

/-- ASCII whitespace as `str.strip()` removes it. -/
def pyIsSpace (c : Char) : Bool :=
  c = ' ' ∨ c = '\t' ∨ c = '\n' ∨ c = '\r' ∨ c = '\x0b' ∨ c = '\x0c'

/-- `line.strip()`: drop whitespace from both ends. -/
def pyStrip (l : List Char) : List Char :=
  ((l.dropWhile pyIsSpace).reverse.dropWhile pyIsSpace).reverse

/-- `s.split(sep)` for a one-character separator: every occurrence
splits, empty pieces kept. -/
def splitOnChar (sep : Char) : List Char → List (List Char)
  | [] => [[]]
  | c :: cs =>
    let r := splitOnChar sep cs
    if c = sep then [] :: r
    else
      match r with
      | [] => [[c]]
      | h :: t => (c :: h) :: t

/-- Decimal value of a digit string, accumulator style. -/
def digitsValGo : Nat → List Char → Option Nat
  | acc, [] => some acc
  | acc, c :: cs =>
    if c.isDigit then digitsValGo (acc * 10 + (c.toNat - 48)) cs else none

/-- Decimal value of a nonempty all-digit string. -/
def digitsVal (l : List Char) : Option Nat :=
  if l = [] then none else digitsValGo 0 l

/-- `int(value)` on a string: strip, optional sign, decimal digits. -/
def pyInt (l : List Char) : Option Int :=
  match pyStrip l with
  | '-' :: rest => (digitsVal rest).map (fun n => -(n : Int))
  | '+' :: rest => (digitsVal rest).map (fun n => (n : Int))
  | s => (digitsVal s).map (fun n => (n : Int))

/-- The `%m` pattern of `strptime` (`1[0-2]|0[1-9]|[1-9]`): candidate
(month, remaining input) pairs in the regex's alternation order. -/
def monthAlts : List Char → List (Nat × List Char)
  | a :: b :: rest =>
    (if a = '1' ∧ ('0' ≤ b ∧ b ≤ '2') then [(10 + (b.toNat - 48), rest)] else []) ++
    (if a = '0' ∧ ('1' ≤ b ∧ b ≤ '9') then [(b.toNat - 48, rest)] else []) ++
    (if '1' ≤ a ∧ a ≤ '9' then [(a.toNat - 48, b :: rest)] else [])
  | [a] => if '1' ≤ a ∧ a ≤ '9' then [(a.toNat - 48, [])] else []
  | [] => []

/-- The `%d` pattern of `strptime` (`3[01]|[12]\d|0[1-9]|[1-9]`). -/
def dayAlts : List Char → List (Nat × List Char)
  | a :: b :: rest =>
    (if a = '3' ∧ ('0' ≤ b ∧ b ≤ '1') then [(30 + (b.toNat - 48), rest)] else []) ++
    (if ('1' ≤ a ∧ a ≤ '2') ∧ ('0' ≤ b ∧ b ≤ '9') then
      [((a.toNat - 48) * 10 + (b.toNat - 48), rest)] else []) ++
    (if a = '0' ∧ ('1' ≤ b ∧ b ≤ '9') then [(b.toNat - 48, rest)] else []) ++
    (if '1' ≤ a ∧ a ≤ '9' then [(a.toNat - 48, b :: rest)] else [])
  | [a] => if '1' ≤ a ∧ a ≤ '9' then [(a.toNat - 48, [])] else []
  | [] => []

/-- `datetime.strptime(s, "%Y%m%d")` as a whole-string regex match with
backtracking: four year digits, then a month and a day alternative that
leave nothing unconsumed. -/
def strptimeYmd (l : List Char) : Option (Nat × Nat × Nat) :=
  match l with
  | y1 :: y2 :: y3 :: y4 :: rest =>
    if y1.isDigit ∧ y2.isDigit ∧ y3.isDigit ∧ y4.isDigit then
      let y := (y1.toNat - 48) * 1000 + (y2.toNat - 48) * 100 +
        (y3.toNat - 48) * 10 + (y4.toNat - 48)
      (monthAlts rest).findSome? (fun mr =>
        (dayAlts mr.2).findSome? (fun dr =>
          if dr.2 = [] then some (y, mr.1, dr.1) else none))
    else none
  | _ => none

def isLeapYear (y : Nat) : Bool := (y % 4 = 0 ∧ y % 100 ≠ 0) ∨ y % 400 = 0

def daysInMonth (y m : Nat) : Nat :=
  if m = 2 then (if isLeapYear y then 29 else 28)
  else if m = 4 ∨ m = 6 ∨ m = 9 ∨ m = 11 then 30
  else 31

/-- `RIRParser._parse_date`: a nonempty all-digit field is parsed with
`%Y%m%d` and validated as a calendar date; anything else falls back to
1900-01-01. The result is encoded `year*10000 + month*100 + day`. -/
def pyParseDate (l : List Char) : Nat :=
  if l ≠ [] ∧ l.all Char.isDigit then
    match strptimeYmd l with
    | some (y, m, d) =>
      if 1 ≤ y ∧ d ≤ daysInMonth y m then y * 10000 + m * 100 + d else 19000101
    | none => 19000101
  else 19000101

/-- One octet of a dotted quad as `ipaddress.IPv4Address` accepts it:
1-3 digits, no leading zero, at most 255. -/
def parseOctet (l : List Char) : Option Nat :=
  if l = [] then none
  else if ¬ l.all Char.isDigit then none
  else if 1 < l.length ∧ l.head? = some '0' then none
  else if 3 < l.length then none
  else
    match digitsVal l with
    | some n => if n ≤ 255 then some n else none
    | none => none

/-- `int(ipaddress.IPv4Address(s))`: four dot-separated octets. -/
def parseIPv4Addr (l : List Char) : Option Nat :=
  match (splitOnChar '.' l).map parseOctet with
  | [some a, some b, some c, some d] =>
    some (a * 16777216 + b * 65536 + c * 256 + d)
  | _ => none

/-- `RIRParser._ipv4_to_cidrs` on the raw start string: a failed
address parse is caught and yields the empty list. -/
def pyIpv4ToCidrs (startS : List Char) (count : Int) : List Pfx :=
  match parseIPv4Addr startS with
  | none => []
  | some startInt => ipv4ToCidrsNum startInt count

/-- `cc.upper()` for ASCII text. -/
def pyUpper (l : List Char) : String := ⟨l.map Char.toUpper⟩

/-- `RIRParser._parse_line`, with the IPv6 network constructor
abstracted as `v6parse` (it is `ipaddress.IPv6Network`, returning
`none` for a `ValueError`). `none` models a dropped (`return None`)
line; `some []` models a line that produced no entries. -/
def parseLine (v6parse : List Char → Int → Option Pfx)
    (line : List Char) (registry : String) : Option (List Entry) :=
  let l := pyStrip line
  if l = [] then none
  else if l.head? = some '#' then none
  else
    let parts := splitOnChar '|' l
    if parts.length < 7 then none
    else
      match parts with
      | _ :: ccF :: typeF :: startF :: valueF :: dateF :: statusF :: _ =>
        if ¬ (typeF = "ipv4".data ∨ typeF = "ipv6".data) then none
        else if ¬ (statusF = "allocated".data ∨ statusF = "assigned".data) then none
        else if typeF = "ipv4".data then
          match pyInt valueF with
          | none => none
          | some count =>
            some ((pyIpv4ToCidrs startF count).map (fun p =>
              ⟨registry, pyUpper ccF, "ipv4", ⟨startF⟩, ⟨valueF⟩,
                pyParseDate dateF, ⟨statusF⟩, p⟩))
        else
          match pyInt valueF with
          | none => none
          | some plen =>
            match v6parse startF plen with
            | none => none
            | some p =>
              some [⟨registry, pyUpper ccF, "ipv6", ⟨startF⟩, ⟨valueF⟩,
                pyParseDate dateF, ⟨statusF⟩, p⟩]
      | _ => none

/-- C9 (amended): the parser never validates the country-code field; it
only uppercases it. Every emitted entry's country code is exactly the
uppercased second field of the pipe-split line, whatever that field
held — two uppercase letters are NOT guaranteed. -/
theorem parser_cc_uppercase (v6parse : List Char → Int → Option Pfx)
    (line : List Char) (registry : String) (es : List Entry)
    (h : parseLine v6parse line registry = some es) :
    ∀ e ∈ es, e.cc = pyUpper ((splitOnChar '|' (pyStrip line)).getD 1 []) := by
  unfold parseLine at h
  by_cases h1 : pyStrip line = []
  · rw [if_pos h1] at h; simp at h
  rw [if_neg h1] at h
  by_cases h2 : (pyStrip line).head? = some '#'
  · rw [if_pos h2] at h; simp at h
  rw [if_neg h2] at h
  rcases hsp : splitOnChar '|' (pyStrip line) with _ | ⟨p0, t1⟩
  · rw [hsp] at h; simp at h
  rcases t1 with _ | ⟨ccF, t2⟩
  · rw [hsp] at h; simp at h
  rcases t2 with _ | ⟨typeF, t3⟩
  · rw [hsp] at h; simp at h
  rcases t3 with _ | ⟨startF, t4⟩
  · rw [hsp] at h; simp at h
  rcases t4 with _ | ⟨valueF, t5⟩
  · rw [hsp] at h; simp at h
  rcases t5 with _ | ⟨dateF, t6⟩
  · rw [hsp] at h; simp at h
  rcases t6 with _ | ⟨statusF, rest⟩
  · rw [hsp] at h; simp at h
  rw [hsp] at h
  have hlen : ¬ (p0 :: ccF :: typeF :: startF :: valueF :: dateF :: statusF ::
      rest).length < 7 := by
    simp [List.length_cons]
  rw [if_neg hlen] at h
  dsimp only at h
  by_cases hty : ¬ (typeF = "ipv4".data ∨ typeF = "ipv6".data)
  · rw [if_pos hty] at h; simp at h
  rw [if_neg hty] at h
  by_cases hst : ¬ (statusF = "allocated".data ∨ statusF = "assigned".data)
  · rw [if_pos hst] at h; simp at h
  rw [if_neg hst] at h
  by_cases h4 : typeF = "ipv4".data
  · rw [if_pos h4] at h
    rcases hint : pyInt valueF with _ | count
    · rw [hint] at h; simp at h
    rw [hint] at h
    have hes := Option.some_inj.mp h
    subst hes
    intro e he
    obtain ⟨p, -, rfl⟩ := List.mem_map.mp he
    rfl
  · rw [if_neg h4] at h
    rcases hint : pyInt valueF with _ | plen
    · rw [hint] at h; simp at h
    rw [hint] at h
    dsimp only at h
    rcases hv6 : v6parse startF plen with _ | p
    · rw [hv6] at h; simp at h
    rw [hv6] at h
    have hes := Option.some_inj.mp h
    subst hes
    intro e he
    rw [List.mem_singleton.mp he]
    rfl

/-- C9 counterexample: the line's country-code field is `zz9`; the
parser accepts the line and emits an entry whose country code `ZZ9` is
three characters, one of them a digit — not two uppercase letters. -/
theorem parser_cc_uppercase_counterexample :
    parseLine (fun _ _ => none)
      "apnic|zz9|ipv4|1.0.0.1|1|20120101|allocated".data "apnic" =
      some [⟨"apnic", "ZZ9", "ipv4", "1.0.0.1", "1", 20120101, "allocated",
        ⟨32, 16777217, 32⟩⟩] ∧
    ¬ (("ZZ9" : String).data.length = 2 ∧
        ∀ c ∈ ("ZZ9" : String).data, 'A' ≤ c ∧ c ≤ 'Z') := by decide

/-- Concrete instance of the amended C9 theorem: a lowercase `jp` field
comes out as the uppercased second field `JP`. -/
theorem parser_cc_uppercase_witness :
    (parseLine (fun _ _ => none)
      "apnic|jp|ipv4|1.0.0.0|1|20120101|allocated".data "apnic" =
      some [⟨"apnic", "JP", "ipv4", "1.0.0.0", "1", 20120101, "allocated",
        ⟨32, 16777216, 32⟩⟩]) ∧
    (∀ e ∈ [(⟨"apnic", "JP", "ipv4", "1.0.0.0", "1", 20120101, "allocated",
        ⟨32, 16777216, 32⟩⟩ : Entry)],
      e.cc = pyUpper ((splitOnChar '|'
        (pyStrip "apnic|jp|ipv4|1.0.0.0|1|20120101|allocated".data)).getD 1 [])) :=
  ⟨by decide, parser_cc_uppercase (fun _ _ => none)
    "apnic|jp|ipv4|1.0.0.0|1|20120101|allocated".data "apnic" _ (by decide)⟩

theorem ipv4ToCidrsNum_nonpos (a : Nat) (k : Int) (hk : k ≤ 0) :
    ipv4ToCidrsNum a k = [] := by
  unfold ipv4ToCidrsNum
  rw [Int.toNat_of_nonpos hk]
  rfl

theorem pyIpv4ToCidrs_nonpos (startF : List Char) (k : Int) (hk : k ≤ 0) :
    pyIpv4ToCidrs startF k = [] := by
  unfold pyIpv4ToCidrs
  cases parseIPv4Addr startF with
  | none => rfl
  | some a => exact ipv4ToCidrsNum_nonpos a k hk

/-- C10: an otherwise well-formed IPv4 line whose value field parses to
a count ≤ 0 yields no CIDR blocks and an empty entry list — the line is
dropped silently, with no error path taken. -/
theorem ipv4_nonpositive_count_dropped
    (v6parse : List Char → Int → Option Pfx) (line : List Char) (registry : String)
    (p0 ccF startF valueF dateF : List Char) (rest : List (List Char)) (k : Int)
    (hsp : splitOnChar '|' (pyStrip line) =
      p0 :: ccF :: "ipv4".data :: startF :: valueF :: dateF ::
        "allocated".data :: rest)
    (h1 : pyStrip line ≠ [])
    (h2 : (pyStrip line).head? ≠ some '#')
    (hk : pyInt valueF = some k) (hknp : k ≤ 0) :
    parseLine v6parse line registry = some [] ∧ pyIpv4ToCidrs startF k = [] := by
  have hcid : pyIpv4ToCidrs startF k = [] := pyIpv4ToCidrs_nonpos startF k hknp
  refine ⟨?_, hcid⟩
  unfold parseLine
  rw [if_neg h1, if_neg h2, hsp]
  have hlen : ¬ (p0 :: ccF :: "ipv4".data :: startF :: valueF :: dateF ::
      "allocated".data :: rest).length < 7 := by simp [List.length_cons]
  rw [if_neg hlen]
  dsimp only
  rw [if_neg (by simp : ¬¬("ipv4".data = "ipv4".data ∨ "ipv4".data = "ipv6".data))]
  rw [if_neg (by simp :
    ¬¬("allocated".data = "allocated".data ∨ "allocated".data = "assigned".data))]
  rw [if_pos rfl, hk]
  dsimp only
  rw [hcid]
  rfl

/-- Concrete instance of C10: count 0 gives an accepted line with no
entries and no CIDRs. -/
theorem ipv4_nonpositive_count_dropped_witness :
    (pyInt "0".data = some 0 ∧ (0 : Int) ≤ 0) ∧
    (parseLine (fun _ _ => none)
        "apnic|JP|ipv4|1.0.0.0|0|20120101|allocated".data "apnic" = some [] ∧
      pyIpv4ToCidrs "1.0.0.0".data 0 = []) :=
  ⟨⟨by decide, by decide⟩,
    ipv4_nonpositive_count_dropped (fun _ _ => none) _ "apnic" "apnic".data
      "JP".data "1.0.0.0".data "0".data "20120101".data [] 0
      (by decide) (by decide) (by decide) (by decide) (by decide)⟩

/-! ## `IPLookup.lookup_ip`, the `country_code` CLI command, the output
writer's file operations, and the CSV row order -/

/-- `IPLookup.lookup_ip` with the address parser abstracted
(`ipaddress.ip_address`; `none` models a `ValueError`, `some (isV4,
bits)` a parsed address and its bit string). The `ValueError` is caught
inside and becomes a plain `None` return. -/
def lookupIp (parse : String → Option (Bool × List Bool)) (t4 t6 : RadixNode)
    (ip : String) (hint : Option String) : Option String :=
  match parse ip with
  | none => none
  | some (isV4, bits) =>
    if hint = some "ipv4" ∨ (hint = none ∧ isV4 = true) then t4.lookupBits bits
    else if hint = some "ipv6" ∨ (hint = none ∧ isV4 = false) then t6.lookupBits bits
    else none

/-- The `country_code` CLI command: `get_country_code_for_ip` plus
`click.echo(result or "Unknown")`. The pair is (printed text, exit
code); no branch calls `sys.exit`. -/
def countryCodeCmd (parse : String → Option (Bool × List Bool)) (t4 t6 : RadixNode)
    (ip : String) : String × Nat :=
  match lookupIp parse t4 t6 ip none with
  | some cc => if cc = "" then ("Unknown", 0) else (cc, 0)
  | none => ("Unknown", 0)

/-- C5 (amended): an invalid IP string never surfaces an error: the
`ValueError` is caught inside `lookup_ip`, which returns `None` exactly
as for an address with no matching prefix, and the `country_code`
command prints "Unknown" and exits 0 — not non-zero. -/
theorem invalid_ip_no_error (parse : String → Option (Bool × List Bool))
    (t4 t6 : RadixNode) (ip : String) (hp : parse ip = none) :
    lookupIp parse t4 t6 ip none = none ∧
    countryCodeCmd parse t4 t6 ip = ("Unknown", 0) := by
  have h1 : lookupIp parse t4 t6 ip none = none := by
    unfold lookupIp
    rw [hp]
  exact ⟨h1, by unfold countryCodeCmd; rw [h1]⟩

/-- C5 counterexample: for a parser that rejects the input (as
`ipaddress.ip_address("not-an-ip")` does), the engine returns the
normal no-match result `None` — indistinguishable from a valid address
with no stored prefix — and the CLI prints "Unknown" with exit code 0,
not a non-zero exit. -/
theorem invalid_ip_no_error_counterexample :
    lookupIp (fun _ => none) RadixNode.empty RadixNode.empty "not-an-ip" none = none ∧
    countryCodeCmd (fun _ => none) RadixNode.empty RadixNode.empty "not-an-ip" =
      ("Unknown", 0) ∧
    lookupIp (fun _ => some (true, [true])) RadixNode.empty RadixNode.empty
      "128.0.0.1" none = none := by
  refine ⟨?_, ?_, ?_⟩ <;> rfl

/-- Concrete instance of the amended C5 theorem. -/
theorem invalid_ip_no_error_witness :
    ((fun _ : String => (none : Option (Bool × List Bool))) "x" = none) ∧
    (lookupIp (fun _ => none) RadixNode.empty RadixNode.empty "x" none = none ∧
      countryCodeCmd (fun _ => none) RadixNode.empty RadixNode.empty "x" =
        ("Unknown", 0)) :=
  ⟨rfl, invalid_ip_no_error (fun _ => none) RadixNode.empty RadixNode.empty "x" rfl⟩

/-- A file-system operation of the output writer. -/
inductive FsOp where
  | write (path content : String)
  | rename (src dst : String)
deriving DecidableEq, Repr

/-- The file system as a map from path to content. -/
def applyOp (fs : String → Option String) (op : FsOp) : String → Option String :=
  match op with
  | .write p c => fun q => if q = p then some c else fs q
  | .rename s d => fun q => if q = d then fs s else if q = s then none else fs q

def applyOps (fs : String → Option String) (ops : List FsOp) : String → Option String :=
  ops.foldl applyOp fs

/-- `write_aggregated_csv_files`: the two CSVs are opened for writing
at their final paths, in this order; no scratch path, no rename. -/
def writeAggregatedOps (r4 r6 : String) : List FsOp :=
  [.write "prefixes_ipv4_agg.csv" r4, .write "prefixes_ipv6_agg.csv" r6]

/-- C6 (amended): the output writer truncates and rewrites the
committed snapshot files in place — every operation is a direct write
to a final CSV path and none is a rename — so a run aborted after the
first write has already replaced the previously-committed IPv4 snapshot
while the IPv6 snapshot still holds the old bytes. -/
theorem output_writes_in_place (fs : String → Option String) (r4 r6 : String) :
    (∀ op ∈ writeAggregatedOps r4 r6, ∃ p c, op = FsOp.write p c ∧
      (p = "prefixes_ipv4_agg.csv" ∨ p = "prefixes_ipv6_agg.csv")) ∧
    applyOps fs (writeAggregatedOps r4 r6) "prefixes_ipv4_agg.csv" = some r4 ∧
    applyOps fs (writeAggregatedOps r4 r6) "prefixes_ipv6_agg.csv" = some r6 ∧
    applyOps fs ((writeAggregatedOps r4 r6).take 1) "prefixes_ipv4_agg.csv" = some r4 ∧
    applyOps fs ((writeAggregatedOps r4 r6).take 1) "prefixes_ipv6_agg.csv" =
      fs "prefixes_ipv6_agg.csv" := by
  refine ⟨?_, ?_, ?_, ?_, ?_⟩
  · intro op hop
    simp only [writeAggregatedOps, List.mem_cons, List.not_mem_nil, or_false] at hop
    rcases hop with h | h
    · exact ⟨_, _, h, Or.inl rfl⟩
    · exact ⟨_, _, h, Or.inr rfl⟩
  · simp [writeAggregatedOps, applyOps, applyOp]
  · simp [writeAggregatedOps, applyOps, applyOp]
  · simp [writeAggregatedOps, applyOps, applyOp]
  · simp [writeAggregatedOps, applyOps, applyOp]

/-- C6 counterexample: start from a file system holding a committed
snapshot; stopping after the first operation of the new run leaves the
IPv4 snapshot file with different bytes — nothing was staged to a
scratch path, and no operation is a rename. -/
theorem output_writes_in_place_counterexample :
    (∀ op ∈ writeAggregatedOps "new4" "new6", ∀ s d, op ≠ FsOp.rename s d) ∧
    applyOps
      (fun p => if p = "prefixes_ipv4_agg.csv" then some "old4"
        else if p = "prefixes_ipv6_agg.csv" then some "old6" else none)
      ((writeAggregatedOps "new4" "new6").take 1) "prefixes_ipv4_agg.csv" ≠
      some "old4" := by
  constructor
  · intro op hop s d
    simp only [writeAggregatedOps, List.mem_cons, List.not_mem_nil, or_false] at hop
    rcases hop with h | h
    · subst h; intro hc; cases hc
    · subst h; intro hc; cases hc
  · decide

/-- The row order of the aggregated CSVs:
`sorted(entries, key=lambda x: x[0].network_address)`. -/
def addrLe (a b : Pfx × String) : Prop := a.1.addr ≤ b.1.addr

instance : DecidableRel addrLe := fun a b => by
  unfold addrLe; infer_instance

instance : IsTotal (Pfx × String) addrLe :=
  ⟨fun a b => by unfold addrLe; omega⟩

instance : IsTrans (Pfx × String) addrLe :=
  ⟨fun a b c hab hbc => by unfold addrLe at *; omega⟩

def csvRows (entries : List (Pfx × String)) : List (Pfx × String) :=
  List.insertionSort addrLe entries

/-- C7 (amended): the CSV rows are the input entries sorted stably by
numeric network address alone — non-decreasing addresses, with rows of
equal network address kept in input order rather than ordered by prefix
length. -/
theorem csv_sorted_by_address (entries : List (Pfx × String)) :
    List.Perm (csvRows entries) entries ∧
    (csvRows entries).Sorted addrLe :=
  ⟨List.perm_insertionSort addrLe entries,
    List.sorted_insertionSort addrLe entries⟩

/-- C7 counterexample: two rows with the same network address 10.0.0.0
but prefix lengths 16 and 8, given in that order, are written in that
order — the /16 row comes first, so equal addresses are NOT ordered by
ascending prefix length. -/
theorem csv_sorted_by_address_counterexample :
    csvRows [(⟨32, 167772160, 16⟩, "B"), (⟨32, 167772160, 8⟩, "A")] =
      [(⟨32, 167772160, 16⟩, "B"), (⟨32, 167772160, 8⟩, "A")] ∧
    ¬ (16 : Nat) ≤ 8 := by decide
